import Mathlib

/-!
Verification of the mofu batch-rename core (`src/rename/queue.rs`,
`src/rename/mapping.rs`, `src/rename/error.rs`, and the superseded draft
`src/rename.rs`).

Modelling conventions:

* A filesystem path is its list of components (`Path := List String`);
  inputs are taken as already-normalized absolute paths, so
  `std::path::absolute` is modelled as the identity on non-empty paths and
  as an I/O error on the empty path.
* The filesystem is a partial map from paths to opaque file contents
  (`FS := Path → Option Nat`).  Directories are not tracked:
  `create_dir_all` performed before a rename is an idempotent helper whose
  effect is invisible at this level of abstraction, and `Path::exists` is
  membership in the map.
* `fs::rename` moves the content of `src` to `dst` and fails with an I/O
  error when `src` does not exist.  The `Io` error variant abstracts all
  underlying I/O errors (it does not retain the OS error payload).
* The internal `HashMap` is modelled as an association list with distinct
  keys.  Its unspecified iteration order is made explicit: the resolver
  (`resolveMap`) takes the entry list in the order in which the map is
  iterated, and `newQueue` instantiates it with insertion order.
* The two unbounded loops of the resolver (the component walk and the
  temporary-name probe) take explicit fuel; exhausting the fuel returns
  `none`, which models non-termination of the source.
-/

namespace Mofu

abbrev Path := List String

abbrev FS := Path → Option Nat

/-- Byte-wise comparison of component names (Rust compares `OsStr` bytes);
scalar codes stand in for bytes. -/
def charsLt : List Char → List Char → Bool
  | [], [] => false
  | [], _ :: _ => true
  | _ :: _, [] => false
  | c :: cs, d :: ds => if c.toNat = d.toNat then charsLt cs ds else decide (c.toNat < d.toNat)

/-- Strict order on component names. -/
def strLtB (a b : String) : Bool := charsLt a.data b.data

/-- Lexicographic order on paths by components, modelling `Ord for PathBuf`
(component-wise comparison). -/
def pathLe : Path → Path → Bool
  | [], _ => true
  | _ :: _, [] => false
  | a :: as, b :: bs => if a = b then pathLe as bs else strLtB a b

/-- The error enum of `src/rename/error.rs` (identical to the draft's enum in
`src/rename.rs`). -/
inductive Error where
  | Io : Error
  | OneToMany (src dst1 dst2 : Path) : Error
  | ManyToOne (src1 src2 dst : Path) : Error
  | NonLeafNode (node descendant : Path) : Error
  | AlreadyExists (src dst : Path) : Error
  | AtomicActionFailed (during_attempt during_rollback : Error) : Error
deriving DecidableEq, Repr

deriving instance DecidableEq for Except

/-- A single source-destination mapping (`Mapping` in
`src/rename/mapping.rs`). -/
structure Mapping where
  src : Path
  dst : Path
deriving DecidableEq, Repr

/-- `Mapping::rename`: fail if the destination exists, then perform the
primitive rename (which fails when the source is missing). -/
def Mapping.renameFS (m : Mapping) (fs : FS) : Except Error FS :=
  if (fs m.dst).isSome then .error (.AlreadyExists m.src m.dst)
  else
    match fs m.src with
    | none => .error .Io
    | some c => .ok fun p => if p = m.dst then some c else if p = m.src then none else fs p

/-- `Mapping::invert`: swap source and destination. -/
def Mapping.invert (m : Mapping) : Mapping := ⟨m.dst, m.src⟩

/-- `RenameQueue`: the ordered mapping list plus the cursor. -/
structure RenameQueue where
  queue : List Mapping
  renamed : Nat
deriving DecidableEq, Repr

/-- Result of running a queue operation against a filesystem: the final
filesystem, the final queue state, and the error if the operation stopped
early (`none` means success). -/
structure RunResult where
  fs : FS
  q : RenameQueue
  err : Option Error

/-- The shared loop body of `RenameQueue::rename` and `RenameQueue::revert`:
apply the mappings in order, counting successes, stopping at the first
failure. -/
def renameAux (fs : FS) : List Mapping → FS × Nat × Option Error
  | [] => (fs, 0, none)
  | m :: rest =>
    match m.renameFS fs with
    | .error e => (fs, 0, some e)
    | .ok fs1 =>
      let r := renameAux fs1 rest
      (r.1, r.2.1 + 1, r.2.2)

/-- `RenameQueue::rename`: apply the pending mappings in order, advancing the
cursor on each success and stopping at the first failure. -/
def RenameQueue.rename (fs : FS) (q : RenameQueue) : RunResult :=
  let r := renameAux fs (q.queue.drop q.renamed)
  ⟨r.1, ⟨q.queue, q.renamed + r.2.1⟩, r.2.2⟩

/-- `RenameQueue::revert`: apply the inverted renamed mappings in reverse
order, decrementing the cursor on each success and stopping at the first
failure. -/
def RenameQueue.revert (fs : FS) (q : RenameQueue) : RunResult :=
  let r := renameAux fs ((q.queue.take q.renamed).reverse.map Mapping.invert)
  ⟨r.1, ⟨q.queue, q.renamed - r.2.1⟩, r.2.2⟩

/-- `RenameQueue::rename_atomic`: rename, and on failure revert; combine the
two errors when the rollback also fails. -/
def RenameQueue.renameAtomic (fs : FS) (q : RenameQueue) : RunResult :=
  let r1 := RenameQueue.rename fs q
  match r1.err with
  | none => r1
  | some e1 =>
    let r2 := RenameQueue.revert r1.fs r1.q
    match r2.err with
    | none => ⟨r2.fs, r2.q, some e1⟩
    | some e2 => ⟨r2.fs, r2.q, some (.AtomicActionFailed e1 e2)⟩

/-- `RenameQueue::revert_atomic`: revert, and on failure rename; combine the
two errors when the rollback also fails. -/
def RenameQueue.revertAtomic (fs : FS) (q : RenameQueue) : RunResult :=
  let r1 := RenameQueue.revert fs q
  match r1.err with
  | none => r1
  | some e1 =>
    let r2 := RenameQueue.rename r1.fs r1.q
    match r2.err with
    | none => ⟨r2.fs, r2.q, some e1⟩
    | some e2 => ⟨r2.fs, r2.q, some (.AtomicActionFailed e1 e2)⟩

/-- `RenameQueue::renamed`: the slice of already-applied mappings. -/
def RenameQueue.renamedSlice (q : RenameQueue) : List Mapping :=
  q.queue.take q.renamed

/-- `RenameQueue::pending`: the slice of not-yet-applied mappings. -/
def RenameQueue.pendingSlice (q : RenameQueue) : List Mapping :=
  q.queue.drop q.renamed

/-- `std::path::absolute` on the already-absolute component lists considered
here: an I/O error on the empty path, the identity otherwise. -/
def absPath (p : Path) : Except Error Path :=
  if p = [] then .error .Io else .ok p

/-- Association-list lookup, modelling `HashMap::get` (and `contains_key`)
by key value. -/
def lookupA : List (Path × Path) → Path → Option Path
  | [], _ => none
  | (k, v) :: rest, x => if k = x then some v else lookupA rest x

/-- Phase 1 of `RenameQueue::new`: build the source-to-destination map,
ignoring exact duplicates and failing with `OneToMany` when one source is
given two differing destinations.  `acc` is the map in insertion order. -/
def buildMapGo (acc : List (Path × Path)) : List (Path × Path) → Except Error (List (Path × Path))
  | [] => .ok acc
  | (s, d) :: rest =>
    match absPath s with
    | .error e => .error e
    | .ok s =>
      match absPath d with
      | .error e => .error e
      | .ok d =>
        match lookupA acc s with
        | some d0 => if d0 = d then buildMapGo acc rest else .error (.OneToMany s d0 d)
        | none => buildMapGo (acc ++ [(s, d)]) rest

/-- Phase 2 of `RenameQueue::new`: build the reverse map, failing with
`ManyToOne` on a shared destination, and collect the endpoint paths of all
non-self mappings (self-mapped pairs contribute no paths). -/
def revCollectGo (revMap : List (Path × Path)) (paths : List Path) :
    List (Path × Path) → Except Error (List Path)
  | [] => .ok paths
  | (s, d) :: rest =>
    match lookupA revMap d with
    | some s0 => .error (.ManyToOne s0 s d)
    | none =>
      if s = d then revCollectGo (revMap ++ [(d, s)]) paths rest
      else revCollectGo (revMap ++ [(d, s)]) (paths ++ [s, d]) rest

/-- The relation `pathLe` as a Prop, for use with `List.insertionSort`. -/
def pathR (p q : Path) : Prop := pathLe p q = true

instance : DecidableRel pathR := fun p q => inferInstanceAs (Decidable (pathLe p q = true))

/-- The stable sort of the collected endpoint paths, modelling
`slice::sort` with the `PathBuf` order.  (A stable sort's output is
determined by sortedness and permutation, since `pathLe` is a total,
antisymmetric order; insertion sort realizes it.) -/
def sortPaths (l : List Path) : List Path := List.insertionSort pathR l

/-- Phase 3 of `RenameQueue::new`: scan adjacent pairs of the sorted
endpoint list; fail with `NonLeafNode` when the first path of a pair is a
component prefix of the second (`Path::starts_with`). -/
def scanWindows : List Path → Option Error
  | p :: q :: rest =>
    if p.isPrefixOf q then some (.NonLeafNode p q) else scanWindows (q :: rest)
  | _ => none

/-- `PathBuf::set_extension` on the last component: replace everything after
the final dot of the file name (a leading-dot-only name has no extension;
a path without a file name is unchanged). -/
def setExtension (p : Path) (ext : String) : Path :=
  match p.getLast? with
  | none => p
  | some name =>
    let parts := name.splitOn "."
    let stem :=
      if parts.length ≤ 1 then name
      else if parts.length = 2 ∧ parts.headD "" = "" then name
      else String.intercalate "." parts.dropLast
    p.dropLast ++ [stem ++ "." ++ ext]

/-- The temporary-name probe of `RenameQueue::new`: repeatedly set the
extension to `temp_i` until the resulting path does not exist.  Fueled; the
source loop is unbounded. -/
def probeTemp (fs : FS) : Path → Nat → Nat → Option Path
  | _, _, 0 => none
  | temp, i, fuel + 1 =>
    let t := setExtension temp ("temp_" ++ toString i)
    if fs t = none then some t else probeTemp fs t (i + 1) fuel

/-- The inner walk loop of `RenameQueue::new`: follow the chain from
`nextSrc`, pushing each link to the front of `walk` and marking nodes
visited, until no further mapping exists; on closing a cycle back to `src`,
synthesize a temporary path and emit the two cycle-breaking halves.
Fueled; the source loop is unbounded. -/
def walkGo (fs : FS) (mapL : List (Path × Path)) (src : Path) :
    Path → List Mapping → List Path → Nat → Option (List Mapping × List Path)
  | _, _, _, 0 => none
  | nextSrc, walk, visited, fuel + 1 =>
    match lookupA mapL nextSrc with
    | none => some (walk, visited)
    | some nextDst =>
      let visited1 := nextSrc :: visited
      if nextDst = src then
        match probeTemp fs nextSrc 0 (fuel + 1) with
        | none => none
        | some temp => some (⟨nextSrc, temp⟩ :: walk ++ [⟨temp, src⟩], visited1)
      else walkGo fs mapL src nextDst (⟨nextSrc, nextDst⟩ :: walk) visited1 fuel

/-- The outer loop of `RenameQueue::new`: for each map entry whose source is
neither self-mapped nor already visited, walk its component and append the
walk to the queue being built. -/
def graphLoop (fs : FS) (mapL : List (Path × Path)) :
    List (Path × Path) → List Path → List Mapping → Nat → Option (List Mapping)
  | [], _, graph, _ => some graph
  | (src, dst) :: rest, visited, graph, fuel =>
    if src = dst ∨ src ∈ visited then graphLoop fs mapL rest visited graph fuel
    else
      match walkGo fs mapL src dst [⟨src, dst⟩] (src :: visited) fuel with
      | none => none
      | some (walk, visited1) => graphLoop fs mapL rest visited1 (graph ++ walk) fuel

/-- Phases 2-4 of `RenameQueue::new`, taking the built map in the order in
which the `HashMap` is iterated (the same order is used by the reverse-map
pass and the graph pass, as in the source).  `none` models
non-termination of the unbounded loops. -/
def resolveMap (fs : FS) (entries : List (Path × Path)) (fuel : Nat) :
    Option (Except Error RenameQueue) :=
  match revCollectGo [] [] entries with
  | .error e => some (.error e)
  | .ok paths =>
    match scanWindows (sortPaths paths) with
    | some e => some (.error e)
    | none =>
      match graphLoop fs entries entries [] [] fuel with
      | none => none
      | some g => some (.ok ⟨g, 0⟩)

/-- `RenameQueue::new`: build the map from the input pairs, then resolve it.
The map is iterated in insertion order here; order-sensitive claims are
stated over `resolveMap` with an arbitrary entry order. -/
def newQueue (fs : FS) (input : List (Path × Path)) (fuel : Nat) :
    Option (Except Error RenameQueue) :=
  match buildMapGo [] input with
  | .error e => some (.error e)
  | .ok m => resolveMap fs m fuel

/-- The endpoint paths pushed by phase 2, in push order: the source and
destination of every non-self mapping. -/
def pathsOf : List (Path × Path) → List Path
  | [] => []
  | (s, d) :: rest => if s = d then pathsOf rest else s :: d :: pathsOf rest

/-- A finite filesystem from an explicit content table (for concrete runs). -/
def fsOf : List (Path × Nat) → FS
  | [] => fun _ => none
  | (k, v) :: rest => fun p => if p = k then some v else fsOf rest p

/-- Serde-level errors raised by the `RenameQueue` deserializer. -/
inductive DeError where
  | duplicateField (f : String) : DeError
  | missingField (f : String) : DeError
  | unknownField (f : String) : DeError
deriving DecidableEq, Repr

/-- `RenameQueueVisitor::visit_map`: read `renamed`/`pending` fields (already
parsed to mapping lists), rejecting duplicate and unknown fields while
reading and missing fields at the end; the queue is the concatenation and
the cursor is the length of the `renamed` list.  No re-validation occurs. -/
def visitMapGo (ro po : Option (List Mapping)) :
    List (String × List Mapping) → Except DeError RenameQueue
  | [] =>
    match ro with
    | none => .error (.missingField "renamed")
    | some r =>
      match po with
      | none => .error (.missingField "pending")
      | some p => .ok ⟨r ++ p, r.length⟩
  | (k, v) :: rest =>
    if k = "renamed" then
      match ro with
      | some _ => .error (.duplicateField "renamed")
      | none => visitMapGo (some v) po rest
    else if k = "pending" then
      match po with
      | some _ => .error (.duplicateField "pending")
      | none => visitMapGo ro (some v) rest
    else .error (.unknownField k)

/-- `Deserialize for RenameQueue` at the field level. -/
def deserializeQueue (kvs : List (String × List Mapping)) : Except DeError RenameQueue :=
  visitMapGo none none kvs

/-- `Serialize for RenameQueue`: the `renamed` slice then the `pending`
slice, under those field names. -/
def serializeQueue (q : RenameQueue) : List (String × List Mapping) :=
  [("renamed", q.renamedSlice), ("pending", q.pendingSlice)]

/-!
Transcription of the superseded draft `src/src/rename.rs`.  Its `Mapping`
and `Error` declarations are field-for-field identical to those of the
final module, so those types are shared; the draft's functions are
transcribed below under the `Draft` namespace.
-/

namespace Draft

/-- Draft `Mapping::rename` (`src/rename.rs`). -/
def renameFS (m : Mapping) (fs : FS) : Except Error FS :=
  if (fs m.dst).isSome then .error (.AlreadyExists m.src m.dst)
  else
    match fs m.src with
    | none => .error .Io
    | some c => .ok fun p => if p = m.dst then some c else if p = m.src then none else fs p

/-- Draft `Mapping::invert`. -/
def invert (m : Mapping) : Mapping := ⟨m.dst, m.src⟩

/-- Draft phase 1 of `RenameQueue::new`. -/
def buildMapGo (acc : List (Path × Path)) : List (Path × Path) → Except Error (List (Path × Path))
  | [] => .ok acc
  | (s, d) :: rest =>
    match absPath s with
    | .error e => .error e
    | .ok s =>
      match absPath d with
      | .error e => .error e
      | .ok d =>
        match lookupA acc s with
        | some d0 => if d0 = d then buildMapGo acc rest else .error (.OneToMany s d0 d)
        | none => buildMapGo (acc ++ [(s, d)]) rest

/-- Draft phase 2 of `RenameQueue::new`. -/
def revCollectGo (revMap : List (Path × Path)) (paths : List Path) :
    List (Path × Path) → Except Error (List Path)
  | [] => .ok paths
  | (s, d) :: rest =>
    match lookupA revMap d with
    | some s0 => .error (.ManyToOne s0 s d)
    | none =>
      if s = d then revCollectGo (revMap ++ [(d, s)]) paths rest
      else revCollectGo (revMap ++ [(d, s)]) (paths ++ [s, d]) rest

/-- Draft phase 3 of `RenameQueue::new`. -/
def scanWindows : List Path → Option Error
  | p :: q :: rest =>
    if p.isPrefixOf q then some (.NonLeafNode p q) else scanWindows (q :: rest)
  | _ => none

/-- Draft temporary-name probe. -/
def probeTemp (fs : FS) : Path → Nat → Nat → Option Path
  | _, _, 0 => none
  | temp, i, fuel + 1 =>
    let t := setExtension temp ("temp_" ++ toString i)
    if fs t = none then some t else probeTemp fs t (i + 1) fuel

/-- Draft inner walk loop. -/
def walkGo (fs : FS) (mapL : List (Path × Path)) (src : Path) :
    Path → List Mapping → List Path → Nat → Option (List Mapping × List Path)
  | _, _, _, 0 => none
  | nextSrc, walk, visited, fuel + 1 =>
    match lookupA mapL nextSrc with
    | none => some (walk, visited)
    | some nextDst =>
      let visited1 := nextSrc :: visited
      if nextDst = src then
        match probeTemp fs nextSrc 0 (fuel + 1) with
        | none => none
        | some temp => some (⟨nextSrc, temp⟩ :: walk ++ [⟨temp, src⟩], visited1)
      else walkGo fs mapL src nextDst (⟨nextSrc, nextDst⟩ :: walk) visited1 fuel

/-- Draft outer graph loop. -/
def graphLoop (fs : FS) (mapL : List (Path × Path)) :
    List (Path × Path) → List Path → List Mapping → Nat → Option (List Mapping)
  | [], _, graph, _ => some graph
  | (src, dst) :: rest, visited, graph, fuel =>
    if src = dst ∨ src ∈ visited then graphLoop fs mapL rest visited graph fuel
    else
      match walkGo fs mapL src dst [⟨src, dst⟩] (src :: visited) fuel with
      | none => none
      | some (walk, visited1) => graphLoop fs mapL rest visited1 (graph ++ walk) fuel

/-- Draft phases 2-4 of `RenameQueue::new`. -/
def resolveMap (fs : FS) (entries : List (Path × Path)) (fuel : Nat) :
    Option (Except Error RenameQueue) :=
  match revCollectGo [] [] entries with
  | .error e => some (.error e)
  | .ok paths =>
    match scanWindows (sortPaths paths) with
    | some e => some (.error e)
    | none =>
      match graphLoop fs entries entries [] [] fuel with
      | none => none
      | some g => some (.ok ⟨g, 0⟩)

/-- Draft `RenameQueue::new`. -/
def newQueue (fs : FS) (input : List (Path × Path)) (fuel : Nat) :
    Option (Except Error RenameQueue) :=
  match buildMapGo [] input with
  | .error e => some (.error e)
  | .ok m => resolveMap fs m fuel

/-- Draft rename/revert loop body. -/
def renameAux (fs : FS) : List Mapping → FS × Nat × Option Error
  | [] => (fs, 0, none)
  | m :: rest =>
    match renameFS m fs with
    | .error e => (fs, 0, some e)
    | .ok fs1 =>
      let r := renameAux fs1 rest
      (r.1, r.2.1 + 1, r.2.2)

/-- Draft `RenameQueue::rename`. -/
def rename (fs : FS) (q : RenameQueue) : RunResult :=
  let r := renameAux fs (q.queue.drop q.renamed)
  ⟨r.1, ⟨q.queue, q.renamed + r.2.1⟩, r.2.2⟩

/-- Draft `RenameQueue::revert`. -/
def revert (fs : FS) (q : RenameQueue) : RunResult :=
  let r := renameAux fs ((q.queue.take q.renamed).reverse.map invert)
  ⟨r.1, ⟨q.queue, q.renamed - r.2.1⟩, r.2.2⟩

/-- Draft `RenameQueue::rename_atomic`. -/
def renameAtomic (fs : FS) (q : RenameQueue) : RunResult :=
  let r1 := rename fs q
  match r1.err with
  | none => r1
  | some e1 =>
    let r2 := revert r1.fs r1.q
    match r2.err with
    | none => ⟨r2.fs, r2.q, some e1⟩
    | some e2 => ⟨r2.fs, r2.q, some (.AtomicActionFailed e1 e2)⟩

/-- Draft `RenameQueue::revert_atomic`. -/
def revertAtomic (fs : FS) (q : RenameQueue) : RunResult :=
  let r1 := revert fs q
  match r1.err with
  | none => r1
  | some e1 =>
    let r2 := rename r1.fs r1.q
    match r2.err with
    | none => ⟨r2.fs, r2.q, some e1⟩
    | some e2 => ⟨r2.fs, r2.q, some (.AtomicActionFailed e1 e2)⟩

end Draft

/-!
Theorems.  First the execution-layer lemmas shared by several claims.
-/

theorem renameFS_ok_elim {m : Mapping} {fs fs1 : FS} (h : m.renameFS fs = .ok fs1) :
    fs m.dst = none ∧ ∃ c, fs m.src = some c ∧
      fs1 = fun p => if p = m.dst then some c else if p = m.src then none else fs p := by
  unfold Mapping.renameFS at h
  split at h
  · exact absurd h (by simp)
  · rename_i hd
    have hdn : fs m.dst = none := by
      cases hfd : fs m.dst with
      | none => rfl
      | some v => rw [hfd] at hd; simp at hd
    cases hs : fs m.src with
    | none => rw [hs] at h; exact absurd h (by simp)
    | some c =>
      rw [hs] at h
      injection h with h1
      exact ⟨hdn, c, rfl, h1.symm⟩

theorem renameFS_invert {m : Mapping} {fs fs1 : FS} (h : m.renameFS fs = .ok fs1) :
    m.invert.renameFS fs1 = .ok fs := by
  obtain ⟨hd, c, hs, rfl⟩ := renameFS_ok_elim h
  have hne : m.src ≠ m.dst := by
    intro e; rw [e, hd] at hs; cases hs
  unfold Mapping.renameFS Mapping.invert
  simp only [if_neg hne, if_pos rfl, Option.isSome_none, Bool.false_eq_true, if_false]
  refine congrArg Except.ok (funext fun p => ?_)
  by_cases hps : p = m.src
  · subst hps; simp [hs.symm, if_neg hne]
  · by_cases hpd : p = m.dst
    · subst hpd; simp [hps, hd.symm]
    · simp [hps, hpd]

theorem renameAux_nil (fs : FS) : renameAux fs [] = (fs, 0, none) := rfl

theorem renameAux_cons_err {fs : FS} {m : Mapping} {e : Error} (rest : List Mapping)
    (hm : m.renameFS fs = .error e) : renameAux fs (m :: rest) = (fs, 0, some e) := by
  unfold renameAux; rw [hm]

theorem renameAux_cons_ok {fs fs1 : FS} {m : Mapping} (rest : List Mapping)
    (hm : m.renameFS fs = .ok fs1) :
    renameAux fs (m :: rest) =
      ((renameAux fs1 rest).1, (renameAux fs1 rest).2.1 + 1, (renameAux fs1 rest).2.2) := by
  simp only [renameAux, hm]

theorem renameAux_count_le (fs : FS) (Q : List Mapping) :
    (renameAux fs Q).2.1 ≤ Q.length := by
  induction Q generalizing fs with
  | nil => simp [renameAux_nil]
  | cons m rest ih =>
    cases hm : m.renameFS fs with
    | error e => rw [renameAux_cons_err rest hm]; simp
    | ok fs1 => rw [renameAux_cons_ok rest hm]; simpa using ih fs1

theorem renameAux_none_count (fs : FS) (Q : List Mapping)
    (h : (renameAux fs Q).2.2 = none) : (renameAux fs Q).2.1 = Q.length := by
  induction Q generalizing fs with
  | nil => simp [renameAux_nil]
  | cons m rest ih =>
    cases hm : m.renameFS fs with
    | error e => rw [renameAux_cons_err rest hm] at h; simp at h
    | ok fs1 =>
      rw [renameAux_cons_ok rest hm] at h ⊢
      simpa using ih fs1 h

theorem renameAux_append (fs fsA : FS) (A B : List Mapping)
    (h : renameAux fs A = (fsA, A.length, none)) :
    renameAux fs (A ++ B) =
      ((renameAux fsA B).1, A.length + (renameAux fsA B).2.1, (renameAux fsA B).2.2) := by
  induction A generalizing fs with
  | nil =>
    rw [renameAux_nil] at h
    injection h with h1 h2
    subst h1
    simp
  | cons m rest ih =>
    cases hm : m.renameFS fs with
    | error e => rw [renameAux_cons_err rest hm] at h; simp at h
    | ok fs1 =>
      rw [renameAux_cons_ok rest hm] at h
      have h1 : (renameAux fs1 rest).1 = fsA := congrArg Prod.fst h
      have h2 : (renameAux fs1 rest).2.1 + 1 = rest.length + 1 := by
        have := congrArg (fun x => x.2.1) h; simpa using this
      have h3 : (renameAux fs1 rest).2.2 = none := by
        have := congrArg (fun x => x.2.2) h; simpa using this
      have hr : renameAux fs1 rest = (fsA, rest.length, none) := by
        have h4 : (renameAux fs1 rest).2.1 = rest.length := by omega
        calc renameAux fs1 rest
            = ((renameAux fs1 rest).1, (renameAux fs1 rest).2.1, (renameAux fs1 rest).2.2) := rfl
          _ = (fsA, rest.length, none) := by rw [h1, h4, h3]
      rw [List.cons_append, renameAux_cons_ok (rest ++ B) hm, ih fs1 hr]
      simp [Nat.add_assoc, Nat.add_comm 1]

theorem renameAux_restore (fs : FS) (Q : List Mapping) :
    renameAux (renameAux fs Q).1
        ((Q.take (renameAux fs Q).2.1).reverse.map Mapping.invert)
      = (fs, (renameAux fs Q).2.1, none) := by
  induction Q generalizing fs with
  | nil => simp [renameAux_nil]
  | cons m rest ih =>
    cases hm : m.renameFS fs with
    | error e => rw [renameAux_cons_err rest hm]; simp [renameAux_nil]
    | ok fs1 =>
      rw [renameAux_cons_ok rest hm]
      have hk := renameAux_count_le fs1 rest
      have hlen : ((rest.take (renameAux fs1 rest).2.1).reverse.map Mapping.invert).length
          = (renameAux fs1 rest).2.1 := by
        simp [List.length_take, Nat.min_eq_left hk]
      have hstep : renameAux fs1 [m.invert] = (fs, 1, none) := by
        rw [renameAux_cons_ok [] (renameFS_invert hm), renameAux_nil]
      have happ := renameAux_append (renameAux fs1 rest).1 fs1
        ((rest.take (renameAux fs1 rest).2.1).reverse.map Mapping.invert) [m.invert]
        (by rw [hlen]; exact ih fs1)
      simp only [List.take_succ_cons, List.reverse_cons, List.map_append, List.map_cons,
        List.map_nil]
      rw [happ, hstep, hlen]

theorem renameAux_err (fs : FS) (Q : List Mapping) (e : Error)
    (h : (renameAux fs Q).2.2 = some e) :
    ∃ m, Q[(renameAux fs Q).2.1]? = some m ∧ m.renameFS (renameAux fs Q).1 = .error e := by
  induction Q generalizing fs with
  | nil => rw [renameAux_nil] at h; simp at h
  | cons m rest ih =>
    cases hm : m.renameFS fs with
    | error e0 =>
      rw [renameAux_cons_err rest hm] at h ⊢
      injection h with h1
      subst h1
      exact ⟨m, by simp, hm⟩
    | ok fs1 =>
      rw [renameAux_cons_ok rest hm] at h ⊢
      obtain ⟨m1, hm1, he1⟩ := ih fs1 h
      exact ⟨m1, by simpa using hm1, he1⟩

theorem newQueue_ok_cursor {fs : FS} {input : List (Path × Path)} {fuel : Nat}
    {q : RenameQueue} (h : newQueue fs input fuel = some (.ok q)) : q.renamed = 0 := by
  unfold newQueue at h
  split at h
  · simp at h
  · unfold resolveMap at h
    split at h
    · simp at h
    · split at h
      · simp at h
      · split at h
        · simp at h
        · rename_i g hg
          injection h with h1
          injection h1 with h2
          rw [← h2]

/-- C1: for a queue resolved by `RenameQueue::new`, a successful `rename()`
followed by `revert()` restores the filesystem exactly, succeeds, and
leaves `renamed()` the empty slice (the cursor back at 0); `revert` walks
the applied entries in reverse order through the inverted mappings. -/
theorem c1_round_trip (fsR fs : FS) (input : List (Path × Path)) (fuel : Nat)
    (q : RenameQueue)
    (hq : newQueue fsR input fuel = some (.ok q))
    (hok : (RenameQueue.rename fs q).err = none) :
    (RenameQueue.revert (RenameQueue.rename fs q).fs (RenameQueue.rename fs q).q).err = none ∧
    (RenameQueue.revert (RenameQueue.rename fs q).fs (RenameQueue.rename fs q).q).fs = fs ∧
    (RenameQueue.revert (RenameQueue.rename fs q).fs (RenameQueue.rename fs q).q).q.renamedSlice
      = [] := by
  have h0 : q.renamed = 0 := newQueue_ok_cursor hq
  have hr : RenameQueue.rename fs q =
      ⟨(renameAux fs q.queue).1, ⟨q.queue, (renameAux fs q.queue).2.1⟩,
        (renameAux fs q.queue).2.2⟩ := by
    unfold RenameQueue.rename
    rw [h0, List.drop_zero]
    simp
  rw [hr] at hok ⊢
  replace hok : (renameAux fs q.queue).2.2 = none := hok
  have hrev : RenameQueue.revert (renameAux fs q.queue).1
      ⟨q.queue, (renameAux fs q.queue).2.1⟩ = ⟨fs, ⟨q.queue, 0⟩, none⟩ := by
    unfold RenameQueue.revert
    simp only
    rw [renameAux_restore fs q.queue]
    simp
  rw [hrev]
  exact ⟨rfl, rfl, by simp [RenameQueue.renamedSlice]⟩

/-- Witness for C1 at a concrete queue and filesystem. -/
theorem c1_round_trip_witness :
    (newQueue (fsOf [(["r", "a"], 0)]) [(["r", "a"], ["r", "b"])] 9
        = some (.ok ⟨[⟨["r", "a"], ["r", "b"]⟩], 0⟩) ∧
      (RenameQueue.rename (fsOf [(["r", "a"], 0)]) ⟨[⟨["r", "a"], ["r", "b"]⟩], 0⟩).err
        = none) ∧
    ((RenameQueue.revert
        (RenameQueue.rename (fsOf [(["r", "a"], 0)]) ⟨[⟨["r", "a"], ["r", "b"]⟩], 0⟩).fs
        (RenameQueue.rename (fsOf [(["r", "a"], 0)]) ⟨[⟨["r", "a"], ["r", "b"]⟩], 0⟩).q).err
        = none ∧
      (RenameQueue.revert
        (RenameQueue.rename (fsOf [(["r", "a"], 0)]) ⟨[⟨["r", "a"], ["r", "b"]⟩], 0⟩).fs
        (RenameQueue.rename (fsOf [(["r", "a"], 0)]) ⟨[⟨["r", "a"], ["r", "b"]⟩], 0⟩).q).fs
        = fsOf [(["r", "a"], 0)] ∧
      (RenameQueue.revert
        (RenameQueue.rename (fsOf [(["r", "a"], 0)]) ⟨[⟨["r", "a"], ["r", "b"]⟩], 0⟩).fs
        (RenameQueue.rename (fsOf [(["r", "a"], 0)]) ⟨[⟨["r", "a"], ["r", "b"]⟩], 0⟩).q).q.renamedSlice
        = []) :=
  ⟨⟨by decide, by decide⟩,
    c1_round_trip (fsOf [(["r", "a"], 0)]) (fsOf [(["r", "a"], 0)])
      [(["r", "a"], ["r", "b"])] 9 ⟨[⟨["r", "a"], ["r", "b"]⟩], 0⟩
      (by decide) (by decide)⟩

/-- C5: when the forward pass of `rename_atomic` fails, `revert` is invoked
at once; for a freshly resolved queue (cursor 0) that revert succeeds, the
filesystem is restored exactly, and the original rename error is returned
alone; when the revert itself fails, the returned error is
`AtomicActionFailed` carrying the attempt error and the rollback error. -/
theorem c5_rename_atomic_rollback :
    (∀ (fs : FS) (q : RenameQueue) (e1 : Error), q.renamed = 0 →
      (RenameQueue.rename fs q).err = some e1 →
      RenameQueue.renameAtomic fs q = ⟨fs, ⟨q.queue, 0⟩, some e1⟩) ∧
    (∀ (fs : FS) (q : RenameQueue) (e1 e2 : Error),
      (RenameQueue.rename fs q).err = some e1 →
      (RenameQueue.revert (RenameQueue.rename fs q).fs (RenameQueue.rename fs q).q).err
        = some e2 →
      RenameQueue.renameAtomic fs q =
        ⟨(RenameQueue.revert (RenameQueue.rename fs q).fs (RenameQueue.rename fs q).q).fs,
          (RenameQueue.revert (RenameQueue.rename fs q).fs (RenameQueue.rename fs q).q).q,
          some (.AtomicActionFailed e1 e2)⟩) := by
  constructor
  · intro fs q e1 h0 he
    have hr : RenameQueue.rename fs q =
        ⟨(renameAux fs q.queue).1, ⟨q.queue, (renameAux fs q.queue).2.1⟩,
          (renameAux fs q.queue).2.2⟩ := by
      unfold RenameQueue.rename
      rw [h0, List.drop_zero]
      simp
    rw [hr] at he
    replace he : (renameAux fs q.queue).2.2 = some e1 := he
    have hrev : RenameQueue.revert (renameAux fs q.queue).1
        ⟨q.queue, (renameAux fs q.queue).2.1⟩ = ⟨fs, ⟨q.queue, 0⟩, none⟩ := by
      unfold RenameQueue.revert
      simp only
      rw [renameAux_restore fs q.queue]
      simp
    unfold RenameQueue.renameAtomic
    rw [hr]
    simp only [he, hrev]
  · intro fs q e1 e2 he1 he2
    unfold RenameQueue.renameAtomic
    simp only [he1, he2]

/-- Witness for C5: a failing forward pass on a fresh queue rolls back to
the original filesystem, and a failing forward pass on a corrupted resumed
queue whose rollback also fails yields `AtomicActionFailed`. -/
theorem c5_rename_atomic_rollback_witness :
    (((RenameQueue.rename (fsOf [(["r", "a"], 0)])
        ⟨[⟨["r", "a"], ["r", "b"]⟩, ⟨["r", "c"], ["r", "d"]⟩], 0⟩).err = some .Io) ∧
      RenameQueue.renameAtomic (fsOf [(["r", "a"], 0)])
          ⟨[⟨["r", "a"], ["r", "b"]⟩, ⟨["r", "c"], ["r", "d"]⟩], 0⟩
        = ⟨fsOf [(["r", "a"], 0)], ⟨[⟨["r", "a"], ["r", "b"]⟩, ⟨["r", "c"], ["r", "d"]⟩], 0⟩,
            some .Io⟩) ∧
    RenameQueue.renameAtomic (fsOf [(["r", "a"], 0), (["r", "b"], 1), (["r", "c"], 3), (["r", "d"], 2)])
        ⟨[⟨["r", "a"], ["r", "b"]⟩, ⟨["r", "c"], ["r", "d"]⟩], 1⟩
      = ⟨(RenameQueue.revert
            (RenameQueue.rename (fsOf [(["r", "a"], 0), (["r", "b"], 1), (["r", "c"], 3), (["r", "d"], 2)])
              ⟨[⟨["r", "a"], ["r", "b"]⟩, ⟨["r", "c"], ["r", "d"]⟩], 1⟩).fs
            (RenameQueue.rename (fsOf [(["r", "a"], 0), (["r", "b"], 1), (["r", "c"], 3), (["r", "d"], 2)])
              ⟨[⟨["r", "a"], ["r", "b"]⟩, ⟨["r", "c"], ["r", "d"]⟩], 1⟩).q).fs,
          (RenameQueue.revert
            (RenameQueue.rename (fsOf [(["r", "a"], 0), (["r", "b"], 1), (["r", "c"], 3), (["r", "d"], 2)])
              ⟨[⟨["r", "a"], ["r", "b"]⟩, ⟨["r", "c"], ["r", "d"]⟩], 1⟩).fs
            (RenameQueue.rename (fsOf [(["r", "a"], 0), (["r", "b"], 1), (["r", "c"], 3), (["r", "d"], 2)])
              ⟨[⟨["r", "a"], ["r", "b"]⟩, ⟨["r", "c"], ["r", "d"]⟩], 1⟩).q).q,
          some (.AtomicActionFailed (.AlreadyExists ["r", "c"] ["r", "d"])
            (.AlreadyExists ["r", "b"] ["r", "a"]))⟩ :=
  ⟨⟨by decide,
    c5_rename_atomic_rollback.1 (fsOf [(["r", "a"], 0)])
      ⟨[⟨["r", "a"], ["r", "b"]⟩, ⟨["r", "c"], ["r", "d"]⟩], 0⟩ .Io rfl (by decide)⟩,
    c5_rename_atomic_rollback.2
      (fsOf [(["r", "a"], 0), (["r", "b"], 1), (["r", "c"], 3), (["r", "d"], 2)])
      ⟨[⟨["r", "a"], ["r", "b"]⟩, ⟨["r", "c"], ["r", "d"]⟩], 1⟩
      (.AlreadyExists ["r", "c"] ["r", "d"]) (.AlreadyExists ["r", "b"] ["r", "a"])
      (by decide) (by decide)⟩

/-- C9: `rename` and `revert` never alter the entry list, only the cursor;
the cursor stays within `[0, len]` (moving forward for `rename`, backward
for `revert`); on failure the operation stopped at the first failing step,
the cursor equals the number of applied entries and indexes the failing
mapping; and the `renamed()`/`pending()` slices always partition the
queue. -/
theorem c9_frame_and_cursor (fs : FS) (q : RenameQueue)
    (h : q.renamed ≤ q.queue.length) :
    (RenameQueue.rename fs q).q.queue = q.queue ∧
    q.renamed ≤ (RenameQueue.rename fs q).q.renamed ∧
    (RenameQueue.rename fs q).q.renamed ≤ q.queue.length ∧
    (∀ e, (RenameQueue.rename fs q).err = some e →
      ∃ m, q.queue[(RenameQueue.rename fs q).q.renamed]? = some m ∧
        m.renameFS (RenameQueue.rename fs q).fs = .error e) ∧
    (RenameQueue.revert fs q).q.queue = q.queue ∧
    (RenameQueue.revert fs q).q.renamed ≤ q.renamed ∧
    (∀ e, (RenameQueue.revert fs q).err = some e →
      1 ≤ (RenameQueue.revert fs q).q.renamed ∧
      ∃ m, q.queue[(RenameQueue.revert fs q).q.renamed - 1]? = some m ∧
        (Mapping.invert m).renameFS (RenameQueue.revert fs q).fs = .error e) ∧
    (RenameQueue.rename fs q).q.renamedSlice ++ (RenameQueue.rename fs q).q.pendingSlice
      = q.queue ∧
    (RenameQueue.revert fs q).q.renamedSlice ++ (RenameQueue.revert fs q).q.pendingSlice
      = q.queue := by
  have hcle := renameAux_count_le fs (q.queue.drop q.renamed)
  rw [List.length_drop] at hcle
  have hrle := renameAux_count_le fs ((q.queue.take q.renamed).reverse.map Mapping.invert)
  have hLlen : ((q.queue.take q.renamed).reverse.map Mapping.invert).length = q.renamed := by
    simp [List.length_take, Nat.min_eq_left h]
  rw [hLlen] at hrle
  refine ⟨rfl, Nat.le_add_right _ _, by
      show q.renamed + (renameAux fs (q.queue.drop q.renamed)).2.1 ≤ q.queue.length
      omega, ?_, rfl, Nat.sub_le _ _, ?_, ?_, ?_⟩
  · intro e he
    replace he : (renameAux fs (q.queue.drop q.renamed)).2.2 = some e := he
    obtain ⟨m, hm, herr⟩ := renameAux_err fs (q.queue.drop q.renamed) e he
    refine ⟨m, ?_, herr⟩
    show q.queue[q.renamed + (renameAux fs (q.queue.drop q.renamed)).2.1]? = some m
    rw [← List.getElem?_drop]
    exact hm
  · intro e he
    replace he : (renameAux fs ((q.queue.take q.renamed).reverse.map Mapping.invert)).2.2
        = some e := he
    obtain ⟨m1, hm1, herr⟩ :=
      renameAux_err fs ((q.queue.take q.renamed).reverse.map Mapping.invert) e he
    set k := (renameAux fs ((q.queue.take q.renamed).reverse.map Mapping.invert)).2.1 with hk
    have hklt : k < q.renamed := by
      by_contra hnk
      have : k = q.renamed := Nat.le_antisymm hrle (Nat.le_of_not_lt hnk)
      rw [List.getElem?_map] at hm1
      have hnone : ((q.queue.take q.renamed).reverse)[k]? = none := by
        apply List.getElem?_eq_none
        simp [List.length_take, Nat.min_eq_left h, this]
      rw [hnone] at hm1
      simp at hm1
    rw [List.getElem?_map, List.getElem?_reverse (by
        simp [List.length_take, Nat.min_eq_left h]; omega)] at hm1
    rw [List.length_take, Nat.min_eq_left h] at hm1
    rw [List.getElem?_take_of_lt (by omega)] at hm1
    cases hq2 : q.queue[q.renamed - 1 - k]? with
    | none => rw [hq2] at hm1; simp at hm1
    | some m0 =>
      rw [hq2] at hm1
      simp only [Option.map_some', Option.some.injEq] at hm1
      constructor
      · show 1 ≤ q.renamed - k
        omega
      · refine ⟨m0, ?_, ?_⟩
        · show q.queue[q.renamed - k - 1]? = some m0
          rw [show q.renamed - k - 1 = q.renamed - 1 - k by omega]
          exact hq2
        · rw [hm1]
          exact herr
  · show (⟨q.queue, _⟩ : RenameQueue).renamedSlice ++ (⟨q.queue, _⟩ : RenameQueue).pendingSlice
      = q.queue
    simp [RenameQueue.renamedSlice, RenameQueue.pendingSlice]
  · show (⟨q.queue, _⟩ : RenameQueue).renamedSlice ++ (⟨q.queue, _⟩ : RenameQueue).pendingSlice
      = q.queue
    simp [RenameQueue.renamedSlice, RenameQueue.pendingSlice]

/-- Witness for C9 at a concrete queue whose rename fails at the second
step. -/
theorem c9_frame_and_cursor_witness :
    (⟨[⟨["r", "a"], ["r", "b"]⟩, ⟨["r", "c"], ["r", "d"]⟩], 1⟩ : RenameQueue).renamed
        ≤ (⟨[⟨["r", "a"], ["r", "b"]⟩, ⟨["r", "c"], ["r", "d"]⟩], 1⟩ : RenameQueue).queue.length ∧
    (RenameQueue.rename (fsOf [(["r", "b"], 1), (["r", "c"], 3), (["r", "d"], 2)])
        ⟨[⟨["r", "a"], ["r", "b"]⟩, ⟨["r", "c"], ["r", "d"]⟩], 1⟩).q.queue
      = [⟨["r", "a"], ["r", "b"]⟩, ⟨["r", "c"], ["r", "d"]⟩] :=
  ⟨by decide,
    (c9_frame_and_cursor (fsOf [(["r", "b"], 1), (["r", "c"], 3), (["r", "d"], 2)])
      ⟨[⟨["r", "a"], ["r", "b"]⟩, ⟨["r", "c"], ["r", "d"]⟩], 1⟩ (by decide)).1⟩

theorem visitMapGo_ok_names (ro po : Option (List Mapping))
    (kvs : List (String × List Mapping)) (h : (visitMapGo ro po kvs).isOk = true) :
    (∀ k ∈ kvs.map Prod.fst, k = "renamed" ∨ k = "pending") ∧
    ((kvs.map Prod.fst).count "renamed" = if ro.isSome then 0 else 1) ∧
    ((kvs.map Prod.fst).count "pending" = if po.isSome then 0 else 1) := by
  induction kvs generalizing ro po with
  | nil =>
    cases ro with
    | none => simp [visitMapGo, Except.isOk, Except.toBool] at h
    | some r =>
      cases po with
      | none => simp [visitMapGo, Except.isOk, Except.toBool] at h
      | some p => simp
  | cons kv rest ih =>
    obtain ⟨k, v⟩ := kv
    by_cases hk1 : k = "renamed"
    · subst hk1
      cases ro with
      | some r =>
        rw [show visitMapGo (some r) po (("renamed", v) :: rest)
            = .error (.duplicateField "renamed") by simp [visitMapGo]] at h
        simp [Except.isOk, Except.toBool] at h
      | none =>
        rw [show visitMapGo none po (("renamed", v) :: rest)
            = visitMapGo (some v) po rest by simp [visitMapGo]] at h
        obtain ⟨hsub, hc1, hc2⟩ := ih (some v) po h
        refine ⟨?_, ?_, ?_⟩
        · intro x hx
          simp at hx
          rcases hx with hx | hx
          · exact Or.inl hx
          · exact hsub x (by simpa using hx)
        · simp only [Option.isSome_some] at hc1
          simp [List.count_cons, hc1]
        · simpa [List.count_cons] using hc2
    · by_cases hk2 : k = "pending"
      · subst hk2
        cases po with
        | some p =>
          rw [show visitMapGo ro (some p) (("pending", v) :: rest)
              = .error (.duplicateField "pending") by simp [visitMapGo, hk1]] at h
          simp [Except.isOk, Except.toBool] at h
        | none =>
          rw [show visitMapGo ro none (("pending", v) :: rest)
              = visitMapGo ro (some v) rest by simp [visitMapGo, hk1]] at h
          obtain ⟨hsub, hc1, hc2⟩ := ih ro (some v) h
          refine ⟨?_, ?_, ?_⟩
          · intro x hx
            simp at hx
            rcases hx with hx | hx
            · exact Or.inr hx
            · exact hsub x (by simpa using hx)
          · simpa [List.count_cons] using hc1
          · simp only [Option.isSome_some] at hc2
            simp [List.count_cons, hc2]
      · rw [show visitMapGo ro po ((k, v) :: rest) = .error (.unknownField k) by
            simp [visitMapGo, hk1, hk2]] at h
        simp [Except.isOk, Except.toBool] at h

/-- C8: serializing any queue and deserializing the result reproduces the
`renamed()` and `pending()` slices exactly and sets the cursor to the
length of the serialized `renamed` list; deserialization re-validates
nothing (it accepts any pair of mapping lists); and a successful
deserialization implies the field names were exactly one `renamed` and one
`pending` — so unknown, duplicate, or missing fields are rejected. -/
theorem c8_serde_round_trip :
    (∀ q : RenameQueue, ∃ q1 : RenameQueue,
      deserializeQueue (serializeQueue q) = .ok q1 ∧
      q1.renamedSlice = q.renamedSlice ∧
      q1.pendingSlice = q.pendingSlice ∧
      q1.renamed = q.renamedSlice.length) ∧
    (∀ r p : List Mapping,
      deserializeQueue [("renamed", r), ("pending", p)] = .ok ⟨r ++ p, r.length⟩) ∧
    (∀ kvs : List (String × List Mapping), (deserializeQueue kvs).isOk = true →
      (∀ k ∈ kvs.map Prod.fst, k = "renamed" ∨ k = "pending") ∧
      (kvs.map Prod.fst).Nodup ∧
      "renamed" ∈ kvs.map Prod.fst ∧ "pending" ∈ kvs.map Prod.fst) := by
  have hbase : ∀ r p : List Mapping,
      deserializeQueue [("renamed", r), ("pending", p)] = .ok ⟨r ++ p, r.length⟩ := by
    intro r p
    simp [deserializeQueue, visitMapGo]
  refine ⟨?_, hbase, ?_⟩
  · intro q
    refine ⟨⟨q.renamedSlice ++ q.pendingSlice, q.renamedSlice.length⟩, hbase _ _, ?_, ?_, rfl⟩
    · show (q.renamedSlice ++ q.pendingSlice).take q.renamedSlice.length = q.renamedSlice
      exact List.take_left _ _
    · show (q.renamedSlice ++ q.pendingSlice).drop q.renamedSlice.length = q.pendingSlice
      exact List.drop_left _ _
  · intro kvs h
    obtain ⟨hsub, hc1, hc2⟩ := visitMapGo_ok_names none none kvs h
    simp only [Option.isSome_none, Bool.false_eq_true, if_false] at hc1 hc2
    refine ⟨hsub, ?_, ?_, ?_⟩
    · rw [List.nodup_iff_count_le_one]
      intro a
      by_cases ha1 : a = "renamed"
      · subst ha1; omega
      · by_cases ha2 : a = "pending"
        · subst ha2; omega
        · have : a ∉ kvs.map Prod.fst := by
            intro hmem
            rcases hsub a hmem with h | h
            · exact ha1 h
            · exact ha2 h
          rw [List.count_eq_zero.mpr this]
          omega
    · exact List.count_pos_iff.mp (by omega)
    · exact List.count_pos_iff.mp (by omega)

theorem draft_renameFS_eq (m : Mapping) (fs : FS) :
    Draft.renameFS m fs = m.renameFS fs := rfl

theorem draft_invert_eq : Draft.invert = Mapping.invert := rfl

theorem draft_buildMapGo_eq (l acc : List (Path × Path)) :
    Draft.buildMapGo acc l = buildMapGo acc l := by
  induction l generalizing acc with
  | nil => rfl
  | cons pr rest ih =>
    obtain ⟨s, d⟩ := pr
    simp only [Draft.buildMapGo, buildMapGo]
    cases habs : absPath s with
    | error e => simp [habs]
    | ok s1 =>
      cases habd : absPath d with
      | error e => simp [habs, habd]
      | ok d1 =>
        cases hl : lookupA acc s1 with
        | some d0 =>
          by_cases hd : d0 = d1
          · simp [habs, habd, hl, hd, ih]
          · simp [habs, habd, hl, hd]
        | none => simp [habs, habd, hl, ih]

theorem draft_revCollectGo_eq (l : List (Path × Path)) (revMap : List (Path × Path))
    (paths : List Path) :
    Draft.revCollectGo revMap paths l = revCollectGo revMap paths l := by
  induction l generalizing revMap paths with
  | nil => rfl
  | cons pr rest ih =>
    obtain ⟨s, d⟩ := pr
    simp only [Draft.revCollectGo, revCollectGo]
    cases hl : lookupA revMap d with
    | some s0 => simp [hl]
    | none =>
      by_cases hsd : s = d
      · simp [hl, hsd, ih]
      · simp [hl, hsd, ih]

theorem draft_scanWindows_eq (l : List Path) :
    Draft.scanWindows l = scanWindows l := by
  induction l with
  | nil => rfl
  | cons p rest ih =>
    cases rest with
    | nil => rfl
    | cons q rest1 =>
      simp only [Draft.scanWindows, scanWindows]
      by_cases hpq : p.isPrefixOf q
      · simp [hpq]
      · simp [hpq, ih]

theorem draft_probeTemp_eq (fuel : Nat) (fs : FS) (temp : Path) (i : Nat) :
    Draft.probeTemp fs temp i fuel = probeTemp fs temp i fuel := by
  induction fuel generalizing temp i with
  | zero => rfl
  | succ n ih =>
    simp only [Draft.probeTemp, probeTemp]
    by_cases hfs : fs (setExtension temp ("temp_" ++ toString i)) = none
    · simp [hfs]
    · simp [hfs, ih]

theorem draft_walkGo_eq (fuel : Nat) (fs : FS) (mapL : List (Path × Path)) (src : Path)
    (nextSrc : Path) (walk : List Mapping) (visited : List Path) :
    Draft.walkGo fs mapL src nextSrc walk visited fuel
      = walkGo fs mapL src nextSrc walk visited fuel := by
  induction fuel generalizing nextSrc walk visited with
  | zero => rfl
  | succ n ih =>
    simp only [Draft.walkGo, walkGo]
    cases hl : lookupA mapL nextSrc with
    | none => simp [hl]
    | some nextDst =>
      by_cases hnd : nextDst = src
      · simp [hl, hnd, draft_probeTemp_eq]
      · simp [hl, hnd, ih]

theorem draft_graphLoop_eq (l : List (Path × Path)) (fs : FS) (mapL : List (Path × Path))
    (visited : List Path) (graph : List Mapping) (fuel : Nat) :
    Draft.graphLoop fs mapL l visited graph fuel = graphLoop fs mapL l visited graph fuel := by
  induction l generalizing visited graph with
  | nil => rfl
  | cons pr rest ih =>
    obtain ⟨src, dst⟩ := pr
    simp only [Draft.graphLoop, graphLoop]
    by_cases hskip : src = dst ∨ src ∈ visited
    · simp [hskip, ih]
    · simp only [hskip, if_false, draft_walkGo_eq]
      cases hw : walkGo fs mapL src dst [⟨src, dst⟩] (src :: visited) fuel with
      | none => simp [hw]
      | some pair => simp [hw, ih]

theorem draft_resolveMap_eq (fs : FS) (entries : List (Path × Path)) (fuel : Nat) :
    Draft.resolveMap fs entries fuel = resolveMap fs entries fuel := by
  simp only [Draft.resolveMap, resolveMap, draft_revCollectGo_eq, draft_scanWindows_eq,
    draft_graphLoop_eq]

theorem draft_newQueue_eq (fs : FS) (input : List (Path × Path)) (fuel : Nat) :
    Draft.newQueue fs input fuel = newQueue fs input fuel := by
  simp only [Draft.newQueue, newQueue, draft_buildMapGo_eq, draft_resolveMap_eq]

theorem draft_renameAux_eq (l : List Mapping) (fs : FS) :
    Draft.renameAux fs l = renameAux fs l := by
  induction l generalizing fs with
  | nil => rfl
  | cons m rest ih =>
    simp only [Draft.renameAux, renameAux, draft_renameFS_eq]
    cases hm : m.renameFS fs with
    | error e => simp [hm]
    | ok fs1 => simp [hm, ih]

theorem draft_rename_eq (fs : FS) (q : RenameQueue) :
    Draft.rename fs q = RenameQueue.rename fs q := by
  simp only [Draft.rename, RenameQueue.rename, draft_renameAux_eq]

theorem draft_revert_eq (fs : FS) (q : RenameQueue) :
    Draft.revert fs q = RenameQueue.revert fs q := by
  simp only [Draft.revert, RenameQueue.revert, draft_renameAux_eq, draft_invert_eq]

/-- C10: the superseded draft `RenameQueue` in `src/rename.rs` and the
final one in `src/rename/queue.rs` are behaviorally equivalent: `new`
produces the same validation error or queue, and `rename`, `revert`,
`rename_atomic`, and `revert_atomic` return the same results on every
filesystem and queue state. -/
theorem c10_draft_final_equivalence :
    (∀ (fs : FS) (input : List (Path × Path)) (fuel : Nat),
      Draft.newQueue fs input fuel = newQueue fs input fuel) ∧
    (∀ (fs : FS) (q : RenameQueue), Draft.rename fs q = RenameQueue.rename fs q) ∧
    (∀ (fs : FS) (q : RenameQueue), Draft.revert fs q = RenameQueue.revert fs q) ∧
    (∀ (fs : FS) (q : RenameQueue), Draft.renameAtomic fs q = RenameQueue.renameAtomic fs q) ∧
    (∀ (fs : FS) (q : RenameQueue), Draft.revertAtomic fs q = RenameQueue.revertAtomic fs q) := by
  refine ⟨draft_newQueue_eq, draft_rename_eq, draft_revert_eq, ?_, ?_⟩
  · intro fs q
    simp only [Draft.renameAtomic, RenameQueue.renameAtomic, draft_rename_eq, draft_revert_eq]
  · intro fs q
    simp only [Draft.revertAtomic, RenameQueue.revertAtomic, draft_rename_eq, draft_revert_eq]

theorem lookupA_mem {l : List (Path × Path)} {s d : Path} (h : lookupA l s = some d) :
    (s, d) ∈ l := by
  induction l with
  | nil => simp [lookupA] at h
  | cons kv rest ih =>
    obtain ⟨k, v⟩ := kv
    by_cases hk : k = s
    · subst hk
      rw [show lookupA ((k, v) :: rest) k = some v by simp [lookupA]] at h
      injection h with h1
      subst h1
      exact List.mem_cons_self _ _
    · rw [show lookupA ((k, v) :: rest) s = lookupA rest s by simp [lookupA, hk]] at h
      exact List.mem_cons_of_mem _ (ih h)

theorem lookupA_eq_none {l : List (Path × Path)} {s : Path} :
    lookupA l s = none ↔ s ∉ l.map Prod.fst := by
  induction l with
  | nil => simp [lookupA]
  | cons kv rest ih =>
    obtain ⟨k, v⟩ := kv
    by_cases hk : k = s
    · subst hk
      simp [lookupA]
    · rw [show lookupA ((k, v) :: rest) s = lookupA rest s by simp [lookupA, hk]]
      simp [ih, Ne.symm hk]

theorem mem_lookupA {l : List (Path × Path)} {s d : Path}
    (hk : (l.map Prod.fst).Nodup) (h : (s, d) ∈ l) : lookupA l s = some d := by
  induction l with
  | nil => simp at h
  | cons kv rest ih =>
    obtain ⟨k, v⟩ := kv
    simp only [List.map_cons, List.nodup_cons] at hk
    rcases List.mem_cons.mp h with h1 | h1
    · injection h1 with h2 h3
      subst h2; subst h3
      simp [lookupA]
    · have hks : k ≠ s := by
        intro he
        subst he
        exact hk.1 (List.mem_map_of_mem Prod.fst h1)
      rw [show lookupA ((k, v) :: rest) s = lookupA rest s by simp [lookupA, hks]]
      exact ih hk.2 h1

theorem buildMapGo_cons_dup {acc : List (Path × Path)} {s d : Path}
    (rest : List (Path × Path)) (hs : s ≠ []) (hd : d ≠ []) (hl : lookupA acc s = some d) :
    buildMapGo acc ((s, d) :: rest) = buildMapGo acc rest := by
  simp [buildMapGo, absPath, hs, hd, hl]

theorem buildMapGo_cons_conflict {acc : List (Path × Path)} {s d d0 : Path}
    (rest : List (Path × Path)) (hs : s ≠ []) (hd : d ≠ []) (hl : lookupA acc s = some d0)
    (hne : d0 ≠ d) :
    buildMapGo acc ((s, d) :: rest) = .error (.OneToMany s d0 d) := by
  simp [buildMapGo, absPath, hs, hd, hl, hne]

theorem buildMapGo_cons_new {acc : List (Path × Path)} {s d : Path}
    (rest : List (Path × Path)) (hs : s ≠ []) (hd : d ≠ []) (hl : lookupA acc s = none) :
    buildMapGo acc ((s, d) :: rest) = buildMapGo (acc ++ [(s, d)]) rest := by
  simp [buildMapGo, absPath, hs, hd, hl]

theorem buildMapGo_err_mem {acc rest : List (Path × Path)} {s d1 d2 : Path}
    (h : buildMapGo acc rest = .error (.OneToMany s d1 d2)) :
    d1 ≠ d2 ∧ (s, d2) ∈ rest ∧ ((s, d1) ∈ acc ∨ (s, d1) ∈ rest) := by
  induction rest generalizing acc with
  | nil => simp [buildMapGo] at h
  | cons pr rest ih =>
    obtain ⟨s0, d0⟩ := pr
    by_cases hs0 : s0 = []
    · rw [show buildMapGo acc ((s0, d0) :: rest) = .error .Io by
          simp [buildMapGo, absPath, hs0]] at h
      simp at h
    · by_cases hd0 : d0 = []
      · rw [show buildMapGo acc ((s0, d0) :: rest) = .error .Io by
            simp [buildMapGo, absPath, hs0, hd0]] at h
        simp at h
      · cases hl : lookupA acc s0 with
        | some dOld =>
          by_cases hdd : dOld = d0
          · subst hdd
            rw [buildMapGo_cons_dup rest hs0 hd0 hl] at h
            obtain ⟨hne, h2, h1⟩ := ih h
            exact ⟨hne, List.mem_cons_of_mem _ h2,
              h1.imp id (List.mem_cons_of_mem _)⟩
          · rw [buildMapGo_cons_conflict rest hs0 hd0 hl hdd] at h
            injection h with h1
            injection h1 with ha hb hc
            subst ha; subst hb; subst hc
            exact ⟨hdd, List.mem_cons_self _ _, Or.inl (lookupA_mem hl)⟩
        | none =>
          rw [buildMapGo_cons_new rest hs0 hd0 hl] at h
          obtain ⟨hne, h2, h1⟩ := ih h
          refine ⟨hne, List.mem_cons_of_mem _ h2, ?_⟩
          rcases h1 with h1 | h1
          · rcases List.mem_append.mp h1 with h1 | h1
            · exact Or.inl h1
            · simp only [List.mem_singleton] at h1
              rw [h1]
              exact Or.inr (List.mem_cons_self _ _)
          · exact Or.inr (List.mem_cons_of_mem _ h1)

theorem buildMapGo_conflict_err {rest : List (Path × Path)} :
    ∀ {acc : List (Path × Path)}, (acc.map Prod.fst).Nodup →
    (∀ pr ∈ rest, pr.1 ≠ [] ∧ pr.2 ≠ []) →
    ∀ {s d1 d2 : Path}, d1 ≠ d2 → (s, d2) ∈ rest → ((s, d1) ∈ acc ∨ (s, d1) ∈ rest) →
    ∃ a b c, buildMapGo acc rest = .error (.OneToMany a b c) := by
  induction rest with
  | nil => intro acc _ _ s d1 d2 _ h2 _; simp at h2
  | cons pr rest ih =>
    intro acc hkn hne s d1 d2 hd h2 h1
    obtain ⟨s0, d0⟩ := pr
    obtain ⟨hs0, hd0⟩ := hne (s0, d0) (List.mem_cons_self _ _)
    have hne1 : ∀ pr ∈ rest, pr.1 ≠ [] ∧ pr.2 ≠ [] := fun pr hp =>
      hne pr (List.mem_cons_of_mem _ hp)
    cases hl : lookupA acc s0 with
    | some dOld =>
      by_cases hdd : dOld = d0
      · subst hdd
        rw [buildMapGo_cons_dup rest hs0 hd0 hl]
        have hmemacc : (s0, dOld) ∈ acc := lookupA_mem hl
        rcases List.mem_cons.mp h2 with hh | hh
        · injection hh with ha hb
          subst ha; subst hb
          rcases h1 with h1 | h1
          · have hu := mem_lookupA hkn h1
            rw [hl] at hu
            injection hu with hu
            exact absurd hu.symm hd
          · rcases List.mem_cons.mp h1 with h1 | h1
            · injection h1 with ha1 hb1
              exact absurd hb1 hd
            · exact ih hkn hne1 (Ne.symm hd) h1 (Or.inl hmemacc)
        · rcases h1 with h1 | h1
          · exact ih hkn hne1 hd hh (Or.inl h1)
          · rcases List.mem_cons.mp h1 with h1 | h1
            · injection h1 with ha1 hb1
              subst ha1; subst hb1
              exact ih hkn hne1 hd hh (Or.inl hmemacc)
            · exact ih hkn hne1 hd hh (Or.inr h1)
      · exact ⟨s0, dOld, d0, buildMapGo_cons_conflict rest hs0 hd0 hl hdd⟩
    | none =>
      rw [buildMapGo_cons_new rest hs0 hd0 hl]
      have hs0nk : s0 ∉ acc.map Prod.fst := lookupA_eq_none.mp hl
      have hkn1 : ((acc ++ [(s0, d0)]).map Prod.fst).Nodup := by
        rw [List.map_append]
        refine List.Nodup.append hkn (by simp) ?_
        intro a ha hb
        simp only [List.map_cons, List.map_nil, List.mem_singleton] at hb
        subst hb
        exact hs0nk ha
      have hinacc : (s0, d0) ∈ acc ++ [(s0, d0)] := by simp
      rcases List.mem_cons.mp h2 with hh | hh
      · injection hh with ha hb
        subst ha; subst hb
        rcases h1 with h1 | h1
        · exact absurd (List.mem_map_of_mem Prod.fst h1) hs0nk
        · rcases List.mem_cons.mp h1 with h1 | h1
          · injection h1 with ha1 hb1
            exact absurd hb1 hd
          · exact ih hkn1 hne1 (Ne.symm hd) h1 (Or.inl hinacc)
      · rcases h1 with h1 | h1
        · exact ih hkn1 hne1 hd hh (Or.inl (List.mem_append_left _ h1))
        · rcases List.mem_cons.mp h1 with h1 | h1
          · injection h1 with ha1 hb1
            subst ha1; subst hb1
            exact ih hkn1 hne1 hd hh (Or.inl hinacc)
          · exact ih hkn1 hne1 hd hh (Or.inr h1)

theorem revCollectGo_err_shape {l revMap : List (Path × Path)} {paths : List Path} {e : Error}
    (h : revCollectGo revMap paths l = .error e) : ∃ a b c, e = .ManyToOne a b c := by
  induction l generalizing revMap paths with
  | nil => simp [revCollectGo] at h
  | cons pr rest ih =>
    obtain ⟨s, d⟩ := pr
    cases hl : lookupA revMap d with
    | some s0 =>
      rw [show revCollectGo revMap paths ((s, d) :: rest) = .error (.ManyToOne s0 s d) by
          simp [revCollectGo, hl]] at h
      injection h with h1
      exact ⟨s0, s, d, h1.symm⟩
    | none =>
      by_cases hsd : s = d
      · rw [show revCollectGo revMap paths ((s, d) :: rest)
            = revCollectGo (revMap ++ [(d, s)]) paths rest by simp [revCollectGo, hl, hsd]] at h
        exact ih h
      · rw [show revCollectGo revMap paths ((s, d) :: rest)
            = revCollectGo (revMap ++ [(d, s)]) (paths ++ [s, d]) rest by
            simp [revCollectGo, hl, hsd]] at h
        exact ih h

theorem scanWindows_some_shape {l : List Path} {e : Error} (h : scanWindows l = some e) :
    ∃ u v, e = .NonLeafNode u v ∧ u.isPrefixOf v = true := by
  induction l with
  | nil => simp [scanWindows] at h
  | cons p rest ih =>
    cases rest with
    | nil => simp [scanWindows] at h
    | cons q rest1 =>
      by_cases hpq : p.isPrefixOf q
      · rw [show scanWindows (p :: q :: rest1) = some (.NonLeafNode p q) by
            simp [scanWindows, hpq]] at h
        injection h with h1
        exact ⟨p, q, h1.symm, hpq⟩
      · rw [show scanWindows (p :: q :: rest1) = scanWindows (q :: rest1) by
            simp [scanWindows, hpq]] at h
        exact ih h

theorem resolveMap_no_one_to_many (fs : FS) (entries : List (Path × Path)) (fuel : Nat)
    (s d1 d2 : Path) : resolveMap fs entries fuel ≠ some (.error (.OneToMany s d1 d2)) := by
  intro h
  unfold resolveMap at h
  split at h
  · rename_i e he
    injection h with h1
    injection h1 with h2
    obtain ⟨a, b, c, hshape⟩ := revCollectGo_err_shape he
    rw [hshape] at h2
    cases h2
  · split at h
    · rename_i e he
      injection h with h1
      injection h1 with h2
      obtain ⟨u, v, hshape, -⟩ := scanWindows_some_shape he
      rw [hshape] at h2
      cases h2
    · split at h
      · simp at h
      · injection h with h1
        cases h1

/-- C7: `RenameQueue::new` fails with `OneToMany` (reporting the shared
source and the two conflicting destinations, both from the input) exactly
when some source occurs in the input with two differing destinations; a
pair that exactly duplicates an earlier pair is ignored and never causes
the error. -/
theorem c7_one_to_many_iff (fs : FS) (input : List (Path × Path)) (fuel : Nat)
    (hne : ∀ pr ∈ input, pr.1 ≠ [] ∧ pr.2 ≠ []) :
    ((∃ s d1 d2, newQueue fs input fuel = some (.error (.OneToMany s d1 d2))) ↔
      (∃ s d1 d2, d1 ≠ d2 ∧ (s, d1) ∈ input ∧ (s, d2) ∈ input)) ∧
    (∀ s d1 d2, newQueue fs input fuel = some (.error (.OneToMany s d1 d2)) →
      d1 ≠ d2 ∧ (s, d1) ∈ input ∧ (s, d2) ∈ input) := by
  have hrep : ∀ s d1 d2, newQueue fs input fuel = some (.error (.OneToMany s d1 d2)) →
      d1 ≠ d2 ∧ (s, d1) ∈ input ∧ (s, d2) ∈ input := by
    intro s d1 d2 h
    unfold newQueue at h
    split at h
    · rename_i e he
      injection h with h1
      injection h1 with h2
      rw [h2] at he
      obtain ⟨hd, h2m, h1m⟩ := buildMapGo_err_mem he
      refine ⟨hd, ?_, h2m⟩
      rcases h1m with h1m | h1m
      · simp at h1m
      · exact h1m
    · exact absurd h (resolveMap_no_one_to_many fs _ fuel s d1 d2)
  refine ⟨⟨?_, ?_⟩, hrep⟩
  · rintro ⟨s, d1, d2, h⟩
    obtain ⟨hd, h1, h2⟩ := hrep s d1 d2 h
    exact ⟨s, d1, d2, hd, h1, h2⟩
  · rintro ⟨s, d1, d2, hd, h1, h2⟩
    obtain ⟨a, b, c, herr⟩ :=
      @buildMapGo_conflict_err input [] (by simp) hne s d1 d2 hd h2 (Or.inr h1)
    refine ⟨a, b, c, ?_⟩
    unfold newQueue
    rw [herr]

/-- Witness for C7 at the input `{(a, b), (a, c)}`. -/
theorem c7_one_to_many_iff_witness :
    (∀ pr ∈ [((["r", "a"] : Path), (["r", "b"] : Path)), (["r", "a"], ["r", "c"])],
      pr.1 ≠ [] ∧ pr.2 ≠ []) ∧
    ((∃ s d1 d2, newQueue (fun _ => none) [(["r", "a"], ["r", "b"]), (["r", "a"], ["r", "c"])] 9
        = some (.error (.OneToMany s d1 d2))) ↔
      (∃ s d1 d2, d1 ≠ d2 ∧ (s, d1) ∈ [((["r", "a"] : Path), (["r", "b"] : Path)), (["r", "a"], ["r", "c"])]
        ∧ (s, d2) ∈ [((["r", "a"] : Path), (["r", "b"] : Path)), (["r", "a"], ["r", "c"])])) :=
  ⟨by decide,
    (c7_one_to_many_iff (fun _ => none) [(["r", "a"], ["r", "b"]), (["r", "a"], ["r", "c"])] 9
      (by decide)).1⟩

/-- C2 (divergence evidence): for the chain `{a→b, b→c, c→d}` on an empty
filesystem, `RenameQueue::new` does not return the queue
`[c→d, b→c, a→b]`; it fails with `NonLeafNode(b, b)`, because the shared
node `b` is pushed into the endpoint list once as a destination and once
as a source, the two copies sort adjacently, and `Path::starts_with` is
true on equal paths.  The same error results for every iteration order of
the internal map (all six are checked). -/
theorem c2_chain_rejected :
    newQueue (fun _ => none)
        [(["t", "a"], ["t", "b"]), (["t", "b"], ["t", "c"]), (["t", "c"], ["t", "d"])] 9
      = some (.error (.NonLeafNode ["t", "b"] ["t", "b"])) ∧
    resolveMap (fun _ => none)
        [(["t", "a"], ["t", "b"]), (["t", "b"], ["t", "c"]), (["t", "c"], ["t", "d"])] 9
      = some (.error (.NonLeafNode ["t", "b"] ["t", "b"])) ∧
    resolveMap (fun _ => none)
        [(["t", "a"], ["t", "b"]), (["t", "c"], ["t", "d"]), (["t", "b"], ["t", "c"])] 9
      = some (.error (.NonLeafNode ["t", "b"] ["t", "b"])) ∧
    resolveMap (fun _ => none)
        [(["t", "b"], ["t", "c"]), (["t", "a"], ["t", "b"]), (["t", "c"], ["t", "d"])] 9
      = some (.error (.NonLeafNode ["t", "b"] ["t", "b"])) ∧
    resolveMap (fun _ => none)
        [(["t", "b"], ["t", "c"]), (["t", "c"], ["t", "d"]), (["t", "a"], ["t", "b"])] 9
      = some (.error (.NonLeafNode ["t", "b"] ["t", "b"])) ∧
    resolveMap (fun _ => none)
        [(["t", "c"], ["t", "d"]), (["t", "a"], ["t", "b"]), (["t", "b"], ["t", "c"])] 9
      = some (.error (.NonLeafNode ["t", "b"] ["t", "b"])) ∧
    resolveMap (fun _ => none)
        [(["t", "c"], ["t", "d"]), (["t", "b"], ["t", "c"]), (["t", "a"], ["t", "b"])] 9
      = some (.error (.NonLeafNode ["t", "b"] ["t", "b"])) := by
  refine ⟨by decide, by decide, by decide, by decide, by decide, by decide, by decide⟩

/-- C4 (divergence evidence): for the two-element cycle `{a→b, b→a}` on an
empty filesystem, `RenameQueue::new` does not return the length-3 queue
`[b→temp, a→b, temp→a]`; it fails with `NonLeafNode(a, a)` for either
iteration order of the internal map, for the same reason as the chain
case, so the cycle-breaking code is never reached. -/
theorem c4_cycle_rejected :
    newQueue (fun _ => none) [(["t", "a"], ["t", "b"]), (["t", "b"], ["t", "a"])] 9
      = some (.error (.NonLeafNode ["t", "a"] ["t", "a"])) ∧
    resolveMap (fun _ => none) [(["t", "a"], ["t", "b"]), (["t", "b"], ["t", "a"])] 9
      = some (.error (.NonLeafNode ["t", "a"] ["t", "a"])) ∧
    resolveMap (fun _ => none) [(["t", "b"], ["t", "a"]), (["t", "a"], ["t", "b"])] 9
      = some (.error (.NonLeafNode ["t", "a"] ["t", "a"])) := by
  refine ⟨by decide, by decide, by decide⟩

theorem charsLt_irrefl (cs : List Char) : charsLt cs cs = false := by
  induction cs with
  | nil => rfl
  | cons c cs ih => simp [charsLt, ih]

theorem charsLt_trans {a b c : List Char} (h1 : charsLt a b = true)
    (h2 : charsLt b c = true) : charsLt a c = true := by
  induction a generalizing b c with
  | nil =>
    cases b with
    | nil => simp [charsLt] at h1
    | cons y ys =>
      cases c with
      | nil => simp [charsLt] at h2
      | cons z zs => simp [charsLt]
  | cons x xs ih =>
    cases b with
    | nil => simp [charsLt] at h1
    | cons y ys =>
      cases c with
      | nil => simp [charsLt] at h2
      | cons z zs =>
        simp only [charsLt] at h1 h2 ⊢
        by_cases hxy : x.toNat = y.toNat
        · by_cases hyz : y.toNat = z.toNat
          · rw [if_pos hxy] at h1
            rw [if_pos hyz] at h2
            rw [if_pos (hxy.trans hyz)]
            exact ih h1 h2
          · rw [if_neg hyz] at h2
            rw [if_neg (hxy ▸ hyz)]
            simp only [decide_eq_true_eq] at h2 ⊢
            omega
        · rw [if_neg hxy] at h1
          simp only [decide_eq_true_eq] at h1
          by_cases hyz : y.toNat = z.toNat
          · rw [if_pos hyz] at h2
            rw [if_neg (by omega)]
            simp only [decide_eq_true_eq]
            omega
          · rw [if_neg hyz] at h2
            simp only [decide_eq_true_eq] at h2
            rw [if_neg (by omega)]
            simp only [decide_eq_true_eq]
            omega

theorem charsLt_tricho {a b : List Char} (h : a ≠ b) :
    charsLt a b = true ∨ charsLt b a = true := by
  induction a generalizing b with
  | nil =>
    cases b with
    | nil => exact absurd rfl h
    | cons y ys => left; simp [charsLt]
  | cons x xs ih =>
    cases b with
    | nil => right; simp [charsLt]
    | cons y ys =>
      by_cases hxy : x.toNat = y.toNat
      · have hx : x = y := Char.eq_of_val_eq (UInt32.ext hxy)
        subst hx
        have hne : xs ≠ ys := by
          intro he; rw [he] at h; exact h rfl
        rcases ih hne with h1 | h1
        · left; simp [charsLt, h1]
        · right; simp [charsLt, h1]
      · by_cases hlt : x.toNat < y.toNat
        · left; simp [charsLt, hxy, hlt]
        · right
          simp only [charsLt]
          rw [if_neg (by omega)]
          simp only [decide_eq_true_eq]
          omega

theorem strLtB_trans {a b c : String} (h1 : strLtB a b = true) (h2 : strLtB b c = true) :
    strLtB a c = true := charsLt_trans h1 h2

theorem strLtB_asymm {a b : String} (h1 : strLtB a b = true) : strLtB b a = false := by
  by_contra hc
  have h2 : strLtB b a = true := by
    cases hv : strLtB b a
    · exact absurd hv hc
    · rfl
  have := charsLt_trans (a := a.data) h1 h2
  rw [charsLt_irrefl] at this
  cases this

theorem strLtB_tricho {a b : String} (h : a ≠ b) :
    strLtB a b = true ∨ strLtB b a = true := by
  refine charsLt_tricho ?_
  intro he
  exact h (String.ext he)

theorem pathLe_refl (p : Path) : pathLe p p = true := by
  induction p with
  | nil => rfl
  | cons a as ih => simp [pathLe, ih]

theorem pathLe_trans {p q r : Path} (h1 : pathLe p q = true) (h2 : pathLe q r = true) :
    pathLe p r = true := by
  induction p generalizing q r with
  | nil => simp [pathLe]
  | cons a as ih =>
    cases q with
    | nil => simp [pathLe] at h1
    | cons b bs =>
      cases r with
      | nil => simp [pathLe] at h2
      | cons c cs =>
        simp only [pathLe] at h1 h2 ⊢
        by_cases hab : a = b
        · subst hab
          rw [if_pos rfl] at h1
          by_cases hbc : a = c
          · subst hbc
            rw [if_pos rfl] at h2
            rw [if_pos rfl]
            exact ih h1 h2
          · rw [if_neg hbc] at h2
            rw [if_neg hbc]
            exact h2
        · rw [if_neg hab] at h1
          by_cases hbc : b = c
          · subst hbc
            rw [if_neg hab]
            exact h1
          · rw [if_neg hbc] at h2
            by_cases hac : a = c
            · subst hac
              have := strLtB_trans h1 h2
              rw [show strLtB a a = charsLt a.data a.data from rfl, charsLt_irrefl] at this
              cases this
            · rw [if_neg hac]
              exact strLtB_trans h1 h2

theorem pathLe_antisymm {p q : Path} (h1 : pathLe p q = true) (h2 : pathLe q p = true) :
    p = q := by
  induction p generalizing q with
  | nil =>
    cases q with
    | nil => rfl
    | cons b bs => simp [pathLe] at h2
  | cons a as ih =>
    cases q with
    | nil => simp [pathLe] at h1
    | cons b bs =>
      simp only [pathLe] at h1 h2
      by_cases hab : a = b
      · subst hab
        rw [if_pos rfl] at h1
        rw [if_pos rfl] at h2
        rw [ih h1 h2]
      · rw [if_neg hab] at h1
        rw [if_neg (Ne.symm hab)] at h2
        rw [strLtB_asymm h1] at h2
        cases h2

theorem pathLe_total (p q : Path) : pathLe p q = true ∨ pathLe q p = true := by
  induction p generalizing q with
  | nil => left; simp [pathLe]
  | cons a as ih =>
    cases q with
    | nil => right; simp [pathLe]
    | cons b bs =>
      by_cases hab : a = b
      · subst hab
        rcases ih bs with h | h
        · left; simp [pathLe, h]
        · right; simp [pathLe, h]
      · rcases strLtB_tricho hab with h | h
        · left; simp [pathLe, hab, h]
        · right; simp [pathLe, Ne.symm hab, h]

instance : IsTrans Path pathR := ⟨fun _ _ _ => pathLe_trans⟩

instance : IsTotal Path pathR := ⟨pathLe_total⟩

theorem sortPaths_pairwise (l : List Path) : List.Pairwise pathR (sortPaths l) :=
  List.sorted_insertionSort pathR l

theorem sortPaths_perm (l : List Path) : List.Perm (sortPaths l) l :=
  List.perm_insertionSort pathR l

theorem isPrefixOf_pathLe {p q : Path} (h : p.isPrefixOf q = true) : pathLe p q = true := by
  induction p generalizing q with
  | nil => simp [pathLe]
  | cons a as ih =>
    cases q with
    | nil => simp [List.isPrefixOf] at h
    | cons b bs =>
      simp only [List.isPrefixOf, Bool.and_eq_true, beq_iff_eq] at h
      obtain ⟨hab, htail⟩ := h
      subst hab
      simp only [pathLe, if_pos rfl]
      exact ih htail

theorem isPrefixOf_interval {p q r : Path} (hpq : p.isPrefixOf q = true)
    (h1 : pathLe p r = true) (h2 : pathLe r q = true) : p.isPrefixOf r = true := by
  induction p generalizing q r with
  | nil => simp [List.isPrefixOf]
  | cons a as ih =>
    cases q with
    | nil => simp [List.isPrefixOf] at hpq
    | cons b bs =>
      simp only [List.isPrefixOf, Bool.and_eq_true, beq_iff_eq] at hpq
      obtain ⟨hab, htail⟩ := hpq
      subst hab
      cases r with
      | nil => simp [pathLe] at h1
      | cons c cs =>
        simp only [pathLe] at h1 h2
        by_cases hac : a = c
        · subst hac
          rw [if_pos rfl] at h1
          rw [if_pos rfl] at h2
          simp only [List.isPrefixOf, Bool.and_eq_true, beq_iff_eq]
          exact ⟨by simp, ih htail h1 h2⟩
        · rw [if_neg hac] at h1
          rw [if_neg (Ne.symm hac)] at h2
          rw [strLtB_asymm h1] at h2
          cases h2

theorem scanWindows_none_chain {l : List Path} (h : scanWindows l = none) :
    List.Chain' (fun a b => a.isPrefixOf b = false) l := by
  induction l with
  | nil => simp
  | cons p rest ih =>
    cases rest with
    | nil => simp
    | cons q rest1 =>
      by_cases hpq : p.isPrefixOf q
      · rw [show scanWindows (p :: q :: rest1) = some (.NonLeafNode p q) by
            simp [scanWindows, hpq]] at h
        cases h
      · rw [show scanWindows (p :: q :: rest1) = scanWindows (q :: rest1) by
            simp [scanWindows, hpq]] at h
        rw [List.chain'_cons]
        refine ⟨by rw [← Bool.not_eq_true]; exact hpq, ih h⟩

theorem sorted_chain_prefix_eq {l : List Path} (hs : List.Pairwise pathR l)
    (hc : List.Chain' (fun a b => a.isPrefixOf b = false) l) :
    ∀ p ∈ l, ∀ q ∈ l, p.isPrefixOf q = true → p = q := by
  induction l with
  | nil => intro p hp; simp at hp
  | cons x t ih =>
    intro p hp q hq hpre
    rcases List.mem_cons.mp hp with hp1 | hp1 <;> rcases List.mem_cons.mp hq with hq1 | hq1
    · rw [hp1, hq1]
    · subst hp1
      cases t with
      | nil => simp at hq1
      | cons y t1 =>
        rw [List.chain'_cons] at hc
        have hpy : pathLe p y = true := (List.pairwise_cons.mp hs).1 y (List.mem_cons_self _ _)
        have hyq : pathLe y q = true := by
          rcases List.mem_cons.mp hq1 with hq2 | hq2
          · rw [hq2]; exact pathLe_refl y
          · exact (List.pairwise_cons.mp (List.pairwise_cons.mp hs).2).1 q hq2
        have := isPrefixOf_interval hpre hpy hyq
        rw [hc.1] at this
        cases this
    · subst hq1
      have hqp : pathLe q p = true := (List.pairwise_cons.mp hs).1 p hp1
      have hpq : pathLe p q = true := isPrefixOf_pathLe hpre
      exact pathLe_antisymm hpq hqp
    · exact ih (List.pairwise_cons.mp hs).2 (List.Chain'.tail hc) p hp1 q hq1 hpre

theorem isPrefixOf_self (p : Path) : p.isPrefixOf p = true := by
  induction p with
  | nil => rfl
  | cons a as ih => simp [List.isPrefixOf, ih]

theorem sorted_chain_nodup {l : List Path} (hs : List.Pairwise pathR l)
    (hc : List.Chain' (fun a b => a.isPrefixOf b = false) l) : l.Nodup := by
  induction l with
  | nil => simp
  | cons x t ih =>
    rw [List.nodup_cons]
    refine ⟨?_, ih (List.pairwise_cons.mp hs).2 (List.Chain'.tail hc)⟩
    intro hxt
    cases t with
    | nil => simp at hxt
    | cons y t1 =>
      rw [List.chain'_cons] at hc
      have hxy : x = y := by
        rcases List.mem_cons.mp hxt with h1 | h1
        · exact h1
        · have h2 : pathLe x y = true :=
            (List.pairwise_cons.mp hs).1 y (List.mem_cons_self _ _)
          have h3 : pathLe y x = true :=
            (List.pairwise_cons.mp (List.pairwise_cons.mp hs).2).1 x h1
          exact pathLe_antisymm h2 h3
      subst hxy
      rw [isPrefixOf_self] at hc
      cases hc.1

theorem lookupA_append_none {l1 l2 : List (Path × Path)} {x : Path} :
    lookupA (l1 ++ l2) x = none ↔ lookupA l1 x = none ∧ lookupA l2 x = none := by
  induction l1 with
  | nil => simp [lookupA]
  | cons kv rest ih =>
    obtain ⟨k, v⟩ := kv
    by_cases hk : k = x
    · simp [lookupA, hk]
    · simp [lookupA, hk, ih]

theorem revCollectGo_ok_paths {l rm : List (Path × Path)} {ps res : List Path}
    (h : revCollectGo rm ps l = .ok res) : res = ps ++ pathsOf l := by
  induction l generalizing rm ps with
  | nil =>
    rw [show revCollectGo rm ps [] = .ok ps from rfl] at h
    injection h with h1
    simp [pathsOf, h1.symm]
  | cons pr rest ih =>
    obtain ⟨s, d⟩ := pr
    cases hl : lookupA rm d with
    | some s0 =>
      rw [show revCollectGo rm ps ((s, d) :: rest) = .error (.ManyToOne s0 s d) by
          simp [revCollectGo, hl]] at h
      cases h
    | none =>
      by_cases hsd : s = d
      · rw [show revCollectGo rm ps ((s, d) :: rest)
            = revCollectGo (rm ++ [(d, s)]) ps rest by simp [revCollectGo, hl, hsd]] at h
        rw [ih h]
        simp [pathsOf, hsd]
      · rw [show revCollectGo rm ps ((s, d) :: rest)
            = revCollectGo (rm ++ [(d, s)]) (ps ++ [s, d]) rest by
            simp [revCollectGo, hl, hsd]] at h
        rw [ih h]
        simp [pathsOf, hsd]

theorem revCollectGo_ok_dst {l rm : List (Path × Path)} {ps res : List Path}
    (h : revCollectGo rm ps l = .ok res) :
    (l.map Prod.snd).Nodup ∧ ∀ d ∈ l.map Prod.snd, lookupA rm d = none := by
  induction l generalizing rm ps with
  | nil => simp
  | cons pr rest ih =>
    obtain ⟨s, d⟩ := pr
    cases hl : lookupA rm d with
    | some s0 =>
      rw [show revCollectGo rm ps ((s, d) :: rest) = .error (.ManyToOne s0 s d) by
          simp [revCollectGo, hl]] at h
      cases h
    | none =>
      have hstep : ∃ ps1, revCollectGo (rm ++ [(d, s)]) ps1 rest = .ok res := by
        by_cases hsd : s = d
        · exact ⟨ps, by rw [show revCollectGo rm ps ((s, d) :: rest)
            = revCollectGo (rm ++ [(d, s)]) ps rest by simp [revCollectGo, hl, hsd]] at h; exact h⟩
        · exact ⟨ps ++ [s, d], by rw [show revCollectGo rm ps ((s, d) :: rest)
            = revCollectGo (rm ++ [(d, s)]) (ps ++ [s, d]) rest by
              simp [revCollectGo, hl, hsd]] at h; exact h⟩
      obtain ⟨ps1, h1⟩ := hstep
      obtain ⟨hnd, hall⟩ := ih h1
      constructor
      · rw [List.map_cons, List.nodup_cons]
        refine ⟨?_, hnd⟩
        intro hmem
        have := hall d hmem
        rw [lookupA_append_none] at this
        simp [lookupA] at this
      · intro d1 hd1
        rcases List.mem_cons.mp hd1 with hd1 | hd1
        · rw [hd1]; exact hl
        · have := hall d1 hd1
          rw [lookupA_append_none] at this
          exact this.1

theorem revCollectGo_ok_exists {l : List (Path × Path)} :
    ∀ {rm : List (Path × Path)} {ps : List Path}, (l.map Prod.snd).Nodup →
    (∀ d ∈ l.map Prod.snd, lookupA rm d = none) →
    ∃ res, revCollectGo rm ps l = .ok res := by
  induction l with
  | nil => intro rm ps _ _; exact ⟨ps, rfl⟩
  | cons pr rest ih =>
    intro rm ps hnd hall
    obtain ⟨s, d⟩ := pr
    have hl : lookupA rm d = none := hall d (by simp)
    rw [List.map_cons, List.nodup_cons] at hnd
    have hall1 : ∀ d1 ∈ rest.map Prod.snd, lookupA (rm ++ [(d, s)]) d1 = none := by
      intro d1 hd1
      rw [lookupA_append_none]
      refine ⟨hall d1 (List.mem_cons_of_mem _ hd1), ?_⟩
      have hne : d ≠ d1 := by
        intro he
        rw [he] at hnd
        exact hnd.1 hd1
      simp [lookupA, hne]
    by_cases hsd : s = d
    · obtain ⟨res, hres⟩ := @ih (rm ++ [(d, s)]) ps hnd.2 hall1
      exact ⟨res, by rw [show revCollectGo rm ps ((s, d) :: rest)
        = revCollectGo (rm ++ [(d, s)]) ps rest by simp [revCollectGo, hl, hsd]]; exact hres⟩
    · obtain ⟨res, hres⟩ := @ih (rm ++ [(d, s)]) (ps ++ [s, d]) hnd.2 hall1
      exact ⟨res, by rw [show revCollectGo rm ps ((s, d) :: rest)
        = revCollectGo (rm ++ [(d, s)]) (ps ++ [s, d]) rest by
          simp [revCollectGo, hl, hsd]]; exact hres⟩

theorem mem_pathsOf {l : List (Path × Path)} {s d : Path} (h : (s, d) ∈ l) (hne : s ≠ d) :
    s ∈ pathsOf l ∧ d ∈ pathsOf l := by
  induction l with
  | nil => simp at h
  | cons pr rest ih =>
    obtain ⟨s0, d0⟩ := pr
    rcases List.mem_cons.mp h with h1 | h1
    · injection h1 with ha hb
      subst ha; subst hb
      rw [show pathsOf ((s, d) :: rest) = s :: d :: pathsOf rest by simp [pathsOf, hne]]
      simp
    · by_cases hself : s0 = d0
      · rw [show pathsOf ((s0, d0) :: rest) = pathsOf rest by simp [pathsOf, hself]]
        exact ih h1
      · rw [show pathsOf ((s0, d0) :: rest) = s0 :: d0 :: pathsOf rest by
            simp [pathsOf, hself]]
        obtain ⟨h2, h3⟩ := ih h1
        exact ⟨by simp [h2], by simp [h3]⟩

theorem no_lookup_of_nodup {l : List (Path × Path)} (hp : (pathsOf l).Nodup)
    (hd : (l.map Prod.snd).Nodup) :
    ∀ s d, (s, d) ∈ l → s ≠ d → lookupA l d = none := by
  induction l with
  | nil => intro s d h; simp at h
  | cons pr rest ih =>
    obtain ⟨s0, d0⟩ := pr
    intro s d hmem hne
    rw [List.map_cons, List.nodup_cons] at hd
    rcases List.mem_cons.mp hmem with h1 | h1
    · injection h1 with ha hb
      subst ha; subst hb
      rw [show pathsOf ((s, d) :: rest) = s :: d :: pathsOf rest by simp [pathsOf, hne]] at hp
      rw [List.nodup_cons, List.nodup_cons] at hp
      have hlr : lookupA rest d = none := by
        cases hlr : lookupA rest d with
        | none => rfl
        | some v =>
          have hmemr : (d, v) ∈ rest := lookupA_mem hlr
          by_cases hv : v = d
          · subst hv
            exact absurd (List.mem_map_of_mem Prod.snd hmemr) hd.1
          · exact absurd (mem_pathsOf hmemr (Ne.symm hv)).1 hp.2.1
      rw [show lookupA ((s, d) :: rest) d = lookupA rest d by simp [lookupA, hne]]
      exact hlr
    · have hs0d : s0 ≠ d := by
        intro he
        subst he
        obtain ⟨-, hdmem⟩ := mem_pathsOf h1 hne
        by_cases hself : s0 = d0
        · subst hself
          exact hd.1 (List.mem_map.mpr ⟨(s, s0), h1, rfl⟩)
        · rw [show pathsOf ((s0, d0) :: rest) = s0 :: d0 :: pathsOf rest by
              simp [pathsOf, hself]] at hp
          rw [List.nodup_cons] at hp
          exact hp.1 (List.mem_cons_of_mem _ hdmem)
      have hp1 : (pathsOf rest).Nodup := by
        by_cases hself : s0 = d0
        · rwa [show pathsOf ((s0, d0) :: rest) = pathsOf rest by simp [pathsOf, hself]] at hp
        · rw [show pathsOf ((s0, d0) :: rest) = s0 :: d0 :: pathsOf rest by
              simp [pathsOf, hself]] at hp
          exact (hp.of_cons).of_cons
      rw [show lookupA ((s0, d0) :: rest) d = lookupA rest d by simp [lookupA, hs0d]]
      exact ih hp1 hd.2 s d h1 hne

theorem graphLoop_ok {fs : FS} {mapL : List (Path × Path)}
    (hno : ∀ s d, (s, d) ∈ mapL → s ≠ d → lookupA mapL d = none) :
    ∀ (rest : List (Path × Path)) (visited : List Path) (graph : List Mapping)
      (fuel : Nat) (g : List Mapping),
    (∀ pr ∈ rest, pr ∈ mapL) →
    (∀ pr ∈ rest, pr.1 ∉ visited) →
    (rest.map Prod.fst).Nodup →
    graphLoop fs mapL rest visited graph fuel = some g →
    g = graph
      ++ (rest.filter (fun pr => decide (pr.1 ≠ pr.2))).map (fun pr => ⟨pr.1, pr.2⟩) := by
  intro rest
  induction rest with
  | nil =>
    intro visited graph fuel g _ _ _ h
    rw [show graphLoop fs mapL [] visited graph fuel = some graph from rfl] at h
    injection h with h1
    simp [h1.symm]
  | cons pr rest ih =>
    intro visited graph fuel g hmem hvis hkeys h
    obtain ⟨src, dst⟩ := pr
    rw [List.map_cons, List.nodup_cons] at hkeys
    by_cases hsd : src = dst
    · rw [show graphLoop fs mapL ((src, dst) :: rest) visited graph fuel
          = graphLoop fs mapL rest visited graph fuel by simp [graphLoop, hsd]] at h
      rw [ih visited graph fuel g (fun pr hp => hmem pr (List.mem_cons_of_mem _ hp))
        (fun pr hp => hvis pr (List.mem_cons_of_mem _ hp)) hkeys.2 h]
      simp [hsd]
    · have hnvis : src ∉ visited := hvis (src, dst) (List.mem_cons_self _ _)
      have hcond : ¬(src = dst ∨ src ∈ visited) := by
        intro hc
        rcases hc with hc | hc
        · exact hsd hc
        · exact hnvis hc
      have hlk : lookupA mapL dst = none :=
        hno src dst (hmem (src, dst) (List.mem_cons_self _ _)) hsd
      cases fuel with
      | zero =>
        rw [show graphLoop fs mapL ((src, dst) :: rest) visited graph 0 = none by
            simp [graphLoop, hcond, walkGo]] at h
        cases h
      | succ n =>
        rw [show graphLoop fs mapL ((src, dst) :: rest) visited graph (n + 1)
            = graphLoop fs mapL rest (src :: visited) (graph ++ [⟨src, dst⟩]) (n + 1) by
            simp [graphLoop, hcond, walkGo, hlk]] at h
        have hvis1 : ∀ pr ∈ rest, pr.1 ∉ src :: visited := by
          intro pr hp hc
          rcases List.mem_cons.mp hc with hc | hc
          · exact hkeys.1 (hc ▸ List.mem_map.mpr ⟨pr, hp, rfl⟩)
          · exact hvis pr (List.mem_cons_of_mem _ hp) hc
        rw [ih (src :: visited) (graph ++ [⟨src, dst⟩]) (n + 1) g
          (fun pr hp => hmem pr (List.mem_cons_of_mem _ hp)) hvis1 hkeys.2 h]
        simp [hsd]

/-- C3: for any iteration order of a validated map with distinct sources,
every queue `RenameQueue::new` actually produces has pairwise-distinct
entries, pairwise-distinct sources, and pairwise-distinct destinations
(no temporary path ever arises, so the temp-path allowance is
unexercised, and no link is ever emitted twice). -/
theorem c3_queue_entry_distinct (fs : FS) (entries : List (Path × Path)) (fuel : Nat)
    (q : RenameQueue) (hkeys : (entries.map Prod.fst).Nodup)
    (hq : resolveMap fs entries fuel = some (.ok q)) :
    q.queue.Nodup ∧ (q.queue.map Mapping.src).Nodup ∧ (q.queue.map Mapping.dst).Nodup := by
  unfold resolveMap at hq
  split at hq
  · simp at hq
  · rename_i paths0 hrev
    split at hq
    · simp at hq
    · rename_i hscan
      split at hq
      · simp at hq
      · rename_i g hg
        have hqq : q = ⟨g, 0⟩ := by
          injection hq with h1
          injection h1 with h2
          exact h2.symm
        subst hqq
        have hpaths : paths0 = pathsOf entries := by
          simpa using revCollectGo_ok_paths hrev
        obtain ⟨hdst, -⟩ := revCollectGo_ok_dst hrev
        have hchain := scanWindows_none_chain hscan
        have hsorted := sortPaths_pairwise paths0
        have hnodup_paths : paths0.Nodup :=
          ((sortPaths_perm paths0).nodup_iff).mp (sorted_chain_nodup hsorted hchain)
        rw [hpaths] at hnodup_paths
        have hno := no_lookup_of_nodup hnodup_paths hdst
        have hgeq := graphLoop_ok hno entries [] [] fuel g (fun pr h => h)
          (by simp) hkeys hg
        have hsrc : ((entries.filter (fun pr => decide (pr.1 ≠ pr.2))).map Prod.fst).Nodup :=
          List.Nodup.sublist ((List.filter_sublist _).map Prod.fst) hkeys
        have hdst2 : ((entries.filter (fun pr => decide (pr.1 ≠ pr.2))).map Prod.snd).Nodup :=
          List.Nodup.sublist ((List.filter_sublist _).map Prod.snd) hdst
        have hqeq : (⟨g, 0⟩ : RenameQueue).queue
            = (entries.filter (fun pr => decide (pr.1 ≠ pr.2))).map (fun pr => ⟨pr.1, pr.2⟩) := by
          rw [hgeq]; simp
        rw [hqeq]
        refine ⟨?_, ?_, ?_⟩
        · refine List.Nodup.of_map (f := Mapping.src) ?_
          rw [List.map_map]
          exact hsrc
        · rw [List.map_map]
          exact hsrc
        · rw [List.map_map]
          exact hdst2

/-- Witness for C3 at a concrete two-entry map. -/
theorem c3_queue_entry_distinct_witness :
    ((([((["t", "a"] : Path), (["t", "b"] : Path)), (["t", "c"], ["t", "d"])]).map Prod.fst).Nodup ∧
      resolveMap (fun _ => none) [(["t", "a"], ["t", "b"]), (["t", "c"], ["t", "d"])] 9
        = some (.ok ⟨[⟨["t", "a"], ["t", "b"]⟩, ⟨["t", "c"], ["t", "d"]⟩], 0⟩)) ∧
    ((⟨[⟨["t", "a"], ["t", "b"]⟩, ⟨["t", "c"], ["t", "d"]⟩], 0⟩ : RenameQueue).queue.Nodup ∧
      ((⟨[⟨["t", "a"], ["t", "b"]⟩, ⟨["t", "c"], ["t", "d"]⟩], 0⟩ : RenameQueue).queue.map
        Mapping.src).Nodup ∧
      ((⟨[⟨["t", "a"], ["t", "b"]⟩, ⟨["t", "c"], ["t", "d"]⟩], 0⟩ : RenameQueue).queue.map
        Mapping.dst).Nodup) :=
  ⟨⟨by decide, by decide⟩,
    c3_queue_entry_distinct (fun _ => none)
      [(["t", "a"], ["t", "b"]), (["t", "c"], ["t", "d"])] 9
      ⟨[⟨["t", "a"], ["t", "b"]⟩, ⟨["t", "c"], ["t", "d"]⟩], 0⟩ (by decide) (by decide)⟩

/-- C6 counterexample: the input `{(d, d), (d/c, x)}` contains the two
distinct paths `d` and `d/c` in an ancestor/descendant relationship, with
`d` occurring only in a self-mapped pair; contrary to the claim,
`RenameQueue::new` succeeds (self-mapped pairs are excluded from the
ancestor/descendant check), returning the queue `[d/c→x]`. -/
theorem c6_self_map_escapes_check :
    newQueue (fun _ => none) [(["t", "d"], ["t", "d"]), (["t", "d", "c"], ["t", "x"])] 9
      = some (.ok ⟨[⟨["t", "d", "c"], ["t", "x"]⟩], 0⟩) ∧
    (["t", "d"] : Path).isPrefixOf ["t", "d", "c"] = true ∧
    (["t", "d"] : Path) ≠ ["t", "d", "c"] := by
  refine ⟨by decide, by decide, by decide⟩

/-- C6 (amended): self-mapped pairs do NOT participate in the
ancestor/descendant check — only the endpoints of non-self mappings do.
For every input whose built map passes the many-to-one check, if two
distinct endpoint paths of non-self mappings are in an
ancestor/descendant relationship, `RenameQueue::new` fails with a
`NonLeafNode` error whose reported node is a (possibly equal) component
prefix of the reported descendant. -/
theorem c6_non_leaf_node_amended (fs : FS) (input : List (Path × Path)) (fuel : Nat)
    (m : List (Path × Path)) (p q : Path)
    (hm : buildMapGo [] input = .ok m)
    (hdst : (m.map Prod.snd).Nodup)
    (hp : p ∈ pathsOf m) (hq : q ∈ pathsOf m) (hpq : p ≠ q)
    (hpre : p.isPrefixOf q = true) :
    ∃ u v, newQueue fs input fuel = some (.error (.NonLeafNode u v))
      ∧ u.isPrefixOf v = true := by
  have hnew : newQueue fs input fuel = resolveMap fs m fuel := by
    unfold newQueue
    rw [hm]
  obtain ⟨paths0, hrev⟩ :=
    @revCollectGo_ok_exists m [] [] hdst (fun d _ => rfl)
  have hpaths : paths0 = pathsOf m := by
    simpa using revCollectGo_ok_paths hrev
  cases hscan : scanWindows (sortPaths paths0) with
  | none =>
    have hchain := scanWindows_none_chain hscan
    have hsorted := sortPaths_pairwise paths0
    have hpmem : p ∈ sortPaths paths0 :=
      ((sortPaths_perm paths0).mem_iff).mpr (by rw [hpaths]; exact hp)
    have hqmem : q ∈ sortPaths paths0 :=
      ((sortPaths_perm paths0).mem_iff).mpr (by rw [hpaths]; exact hq)
    exact absurd (sorted_chain_prefix_eq hsorted hchain p hpmem q hqmem hpre) hpq
  | some e =>
    obtain ⟨u, v, hshape, hpre2⟩ := scanWindows_some_shape hscan
    refine ⟨u, v, ?_, hpre2⟩
    rw [hnew, ← hshape]
    simp only [resolveMap, hrev, hscan]

/-- Witness for the amended C6 at the input `{(d, x), (d/c, y)}`. -/
theorem c6_non_leaf_node_amended_witness :
    (buildMapGo [] [(["t", "d"], ["t", "x"]), (["t", "d", "c"], ["t", "y"])]
        = .ok [(["t", "d"], ["t", "x"]), (["t", "d", "c"], ["t", "y"])] ∧
      (([((["t", "d"] : Path), (["t", "x"] : Path)), (["t", "d", "c"], ["t", "y"])]).map
        Prod.snd).Nodup ∧
      (["t", "d"] : Path) ∈ pathsOf [(["t", "d"], ["t", "x"]), (["t", "d", "c"], ["t", "y"])] ∧
      (["t", "d", "c"] : Path) ∈ pathsOf [(["t", "d"], ["t", "x"]), (["t", "d", "c"], ["t", "y"])] ∧
      (["t", "d"] : Path) ≠ ["t", "d", "c"] ∧
      (["t", "d"] : Path).isPrefixOf ["t", "d", "c"] = true) ∧
    (∃ u v, newQueue (fun _ => none)
        [(["t", "d"], ["t", "x"]), (["t", "d", "c"], ["t", "y"])] 9
        = some (.error (.NonLeafNode u v)) ∧ u.isPrefixOf v = true) :=
  ⟨⟨by decide, by decide, by decide, by decide, by decide, by decide⟩,
    c6_non_leaf_node_amended (fun _ => none)
      [(["t", "d"], ["t", "x"]), (["t", "d", "c"], ["t", "y"])] 9
      [(["t", "d"], ["t", "x"]), (["t", "d", "c"], ["t", "y"])]
      ["t", "d"] ["t", "d", "c"]
      (by decide) (by decide) (by decide) (by decide) (by decide) (by decide)⟩

end Mofu
